import Mathlib

/-!
Verification of the enhancement-pipeline core of the adl-pdf-ingest
repository, as a shallow embedding in Lean.

The embedding follows the Python sources:
  * pdf_ingest/models.py   (state machine, row records, content accessors)
  * pdf_ingest/db.py       (queue and artifact-store operations)
  * pdf_ingest/cleaning.py (text normalizer)
  * pdf_ingest/es_client.py (projection record builder)
  * pdf_ingest/robots/pdf_extractor.py and robots/paperpile_sync.py

Database tables are modelled as lists of row records; SQL UPDATE/INSERT
statements become pure functions on those lists; timestamps (NOW()) and
serial ids are explicit parameters.  The single nondeterministic point,
the selection made by ORDER BY created_at ... LIMIT 1 in
fetch_next_pending, is modelled by a choice parameter constrained by a
validity predicate that captures exactly what the SQL guarantees.
-/

namespace PdfIngest

/-- Characters of a Python str, modelled as a list of chars. -/
abbrev Str := List Char

/-- models.py EnhancementType. -/
inductive EnhancementType
  | FULL_TEXT
  | PAPERPILE_METADATA
deriving DecidableEq, Repr

/-- models.py PendingEnhancementStatus (the state set of section 4.3). -/
inductive PendingEnhancementStatus
  | PENDING
  | PROCESSING
  | IMPORTING
  | INDEXING
  | COMPLETED
  | EXPIRED
  | DISCARDED
  | INDEXING_FAILED
  | FAILED
deriving DecidableEq, Repr

open PendingEnhancementStatus

/-- models.py PendingEnhancementStatus.transitions(): the transition table. -/
def transitions : PendingEnhancementStatus → List PendingEnhancementStatus
  | PENDING => [PROCESSING]
  | PROCESSING => [IMPORTING, EXPIRED, FAILED, DISCARDED]
  | IMPORTING => [INDEXING, COMPLETED, DISCARDED, FAILED]
  | INDEXING => [COMPLETED, INDEXING_FAILED]
  | COMPLETED => []
  | EXPIRED => [PENDING]
  | DISCARDED => []
  | INDEXING_FAILED => []
  | FAILED => [PENDING]

/-- models.py StateMachineMixin.can_transition_to. -/
def canTransitionTo (s t : PendingEnhancementStatus) : Bool :=
  (transitions s).contains t

/-- models.py StateTransitionError: carries current state, target state and
the allowed set. -/
structure StateTransitionError where
  current : PendingEnhancementStatus
  target : PendingEnhancementStatus
  allowed : List PendingEnhancementStatus
deriving DecidableEq, Repr

/-- models.py StateMachineMixin.guard_transition: raises StateTransitionError
when the transition is not allowed. -/
def guardTransition (s t : PendingEnhancementStatus) :
    Except StateTransitionError Unit :=
  if canTransitionTo s t then Except.ok () else
    Except.error { current := s, target := t, allowed := transitions s }

/-- A row of the pending_enhancements table (db.py DDL / models.py
PendingEnhancement). -/
structure PendingRow where
  id : Nat
  document_id : Nat
  enhancement_type : EnhancementType
  status : PendingEnhancementStatus
  created_at : Nat
  updated_at : Nat
  attempts : Nat
  last_error : Option Str
deriving DecidableEq, Repr

/-- Row transformation of db.py update_pending_status: the SQL SET clause
applied to the row whose id matches (status, last_error and updated_at are
written; nothing else). -/
def setStatusRow (pendingId : Nat) (status : PendingEnhancementStatus)
    (lastError : Option Str) (now : Nat) (r : PendingRow) : PendingRow :=
  if r.id = pendingId then
    { r with status := status, last_error := lastError, updated_at := now }
  else r

/-- db.py update_pending_status: an unconditional UPDATE of status,
last_error and updated_at on the row with the given id.  The last_error
parameter of the Python function defaults to None. -/
def updatePendingStatus (tbl : List PendingRow) (pendingId : Nat)
    (status : PendingEnhancementStatus) (lastError : Option Str)
    (now : Nat) : List PendingRow :=
  tbl.map (setStatusRow pendingId status lastError now)

/-- The states listed in the CASE of db.py create_pending_enhancement. -/
def retriableStates : List PendingEnhancementStatus :=
  [COMPLETED, FAILED, EXPIRED, DISCARDED, INDEXING_FAILED]

/-- The CASE expression of db.py create_pending_enhancement: reset to
PENDING from the listed states, otherwise keep the status. -/
def upsertStatus (s : PendingEnhancementStatus) : PendingEnhancementStatus :=
  if retriableStates.contains s then PENDING else s

/-- Conflict lookup on the unique key (document_id, enhancement_type). -/
def findConflict (tbl : List PendingRow) (docId : Nat)
    (ty : EnhancementType) : Option PendingRow :=
  tbl.find? (fun r => r.document_id == docId && r.enhancement_type == ty)

/-- db.py create_pending_enhancement: INSERT ... ON CONFLICT
(document_id, enhancement_type) DO UPDATE SET status = CASE ...,
updated_at = NOW() RETURNING id.  On conflict the CASE resets retriable
statuses to PENDING and updated_at is bumped; without conflict a fresh
PENDING row is inserted with attempts 0 and no last_error.  The DO UPDATE
SET clause applied to the conflicting row: -/
def upsertRow (docId : Nat) (ty : EnhancementType) (now : Nat)
    (r2 : PendingRow) : PendingRow :=
  if r2.document_id == docId && r2.enhancement_type == ty then
    { r2 with status := upsertStatus r2.status, updated_at := now }
  else r2

/-- db.py create_pending_enhancement, the whole statement. -/
def createPendingEnhancement (tbl : List PendingRow) (docId : Nat)
    (ty : EnhancementType) (now newId : Nat) : Nat × List PendingRow :=
  match findConflict tbl docId ty with
  | some r => (r.id, tbl.map (upsertRow docId ty now))
  | none =>
      (newId,
        tbl ++ [{ id := newId, document_id := docId, enhancement_type := ty,
                  status := PENDING, created_at := now, updated_at := now,
                  attempts := 0, last_error := none }])

/-- The WHERE condition of the inner SELECT of db.py fetch_next_pending:
a PENDING row of the requested enhancement type. -/
def isCandidate (ty : EnhancementType) (r : PendingRow) : Bool :=
  r.status == PENDING && r.enhancement_type == ty

/-- What ORDER BY created_at ... LIMIT 1 guarantees about the selected row:
it is a candidate row of the table whose created_at is minimal among the
candidates.  Between equal created_at values the SQL fixes no order. -/
def selectable (tbl : List PendingRow) (ty : EnhancementType)
    (r : PendingRow) : Prop :=
  r ∈ tbl ∧ isCandidate ty r = true ∧
    ∀ r2 ∈ tbl, isCandidate ty r2 = true → r.created_at ≤ r2.created_at

instance (tbl : List PendingRow) (ty : EnhancementType) (r : PendingRow) :
    Decidable (selectable tbl ty r) := by
  unfold selectable; infer_instance

/-- Validity of the selection outcome of the inner SELECT: none exactly
when no candidate row exists, otherwise a selectable row. -/
def validChoice (tbl : List PendingRow) (ty : EnhancementType) :
    Option PendingRow → Prop
  | none => ∀ r ∈ tbl, isCandidate ty r = false
  | some r => selectable tbl ty r

instance (tbl : List PendingRow) (ty : EnhancementType)
    (c : Option PendingRow) : Decidable (validChoice tbl ty c) := by
  cases c <;> · unfold validChoice; infer_instance

/-- The SET clause of db.py fetch_next_pending, applied to the selected
row in the same statement: status to PROCESSING, attempts incremented by
one, updated_at refreshed. -/
def claimUpdate (now : Nat) (r : PendingRow) : PendingRow :=
  { r with status := PROCESSING, attempts := r.attempts + 1,
           updated_at := now }

/-- db.py fetch_next_pending: the single UPDATE ... WHERE id = (SELECT ...)
RETURNING statement.  The choice argument is the outcome of the inner
SELECT (constrained by validChoice); the function returns the RETURNING
row and the updated table. -/
def fetchNextPending (tbl : List PendingRow) (now : Nat) :
    Option PendingRow → Option PendingRow × List PendingRow
  | none => (none, tbl)
  | some r =>
      (some (claimUpdate now r),
        tbl.map (fun r2 => if r2.id = r.id then claimUpdate now r2 else r2))

/-! ### cleaning.py -/

/-- Whitespace as recognized by str.strip / str.split (modelled on the
ASCII whitespace characters). -/
def isSpaceChar (c : Char) : Bool :=
  c == ' ' || c == '\t' || c == '\n' || c == '\r' ||
    c == '\x0b' || c == '\x0c'

/-- Decimal digit as recognized by str.isdigit (modelled on ASCII). -/
def isDigitChar (c : Char) : Bool := '0' ≤ c && c ≤ '9'

/-- Python s.isdigit(): nonempty and all digits. -/
def pythonIsDigit (s : Str) : Bool := !s.isEmpty && s.all isDigitChar

/-- Modelled from the spec: the compatibility-decomposition normalization
step unicodedata.normalize of _normalize_ligatures, whose implementation
is the Python standard library and not part of this repository; the spec
requires it to expand at minimum the seven typographic ligatures, which
it does charwise, leaving other characters unchanged. -/
def nfkcChar (c : Char) : Str :=
  match c with
  | 'ﬀ' => ['f', 'f']
  | 'ﬁ' => ['f', 'i']
  | 'ﬂ' => ['f', 'l']
  | 'ﬃ' => ['f', 'f', 'i']
  | 'ﬄ' => ['f', 'f', 'l']
  | 'ﬅ' => ['s', 't']
  | 'ﬆ' => ['s', 't']
  | c => [c]

/-- Modelled from the spec: string-level compatibility normalization. -/
def nfkc (s : Str) : Str := s.flatMap nfkcChar

/-- Python str.replace with a one-character pattern (the shape used for
every LIGATURE_MAP entry): charwise expansion. -/
def replaceChar (lig : Char) (exp : Str) (s : Str) : Str :=
  s.flatMap (fun c => if c = lig then exp else [c])

/-- cleaning.py LIGATURE_MAP in insertion order. -/
def ligatureMap : List (Char × Str) :=
  [('ﬀ', ['f', 'f']), ('ﬁ', ['f', 'i']), ('ﬂ', ['f', 'l']),
   ('ﬃ', ['f', 'f', 'i']), ('ﬄ', ['f', 'f', 'l']),
   ('ﬅ', ['s', 't']), ('ﬆ', ['s', 't'])]

/-- cleaning.py _normalize_ligatures: NFKC, then the explicit replacement
loop over LIGATURE_MAP. -/
def normalizeLigatures (s : Str) : Str :=
  ligatureMap.foldl (fun t p => replaceChar p.1 p.2 t) (nfkc s)

/-- The per-character action of _normalize_ligatures: the seven
replacements applied to the NFKC image of a single character; the whole
pass is its flatMap. -/
def ligChar (c : Char) : Str :=
  replaceChar 'ﬆ' ['s', 't'] (replaceChar 'ﬅ' ['s', 't']
    (replaceChar 'ﬄ' ['f', 'f', 'l'] (replaceChar 'ﬃ' ['f', 'f', 'i']
      (replaceChar 'ﬂ' ['f', 'l'] (replaceChar 'ﬁ' ['f', 'i']
        (replaceChar 'ﬀ' ['f', 'f'] (nfkcChar c)))))))

/-- Python text.replace of a CRLF pair by a newline: leftmost,
non-overlapping. -/
def replaceCRLF : Str → Str
  | '\r' :: '\n' :: rest => '\n' :: replaceCRLF rest
  | c :: rest => c :: replaceCRLF rest
  | [] => []

/-- Python text.replace of a lone CR by a newline: charwise. -/
def replaceCR (s : Str) : Str :=
  s.map (fun c => if c = '\r' then '\n' else c)

/-- cleaning.py line-ending normalization:
text.replace CRLF to LF, then CR to LF. -/
def normalizeEOL (s : Str) : Str := replaceCR (replaceCRLF s)

/-- Python text.split of a string on a newline: note "".split gives one
empty piece. -/
def splitLines : Str → List Str
  | [] => [[]]
  | '\n' :: rest => [] :: splitLines rest
  | c :: rest =>
      match splitLines rest with
      | l :: ls => (c :: l) :: ls
      | [] => [[c]]

/-- Python newline.join: the inverse of splitLines. -/
def joinLines : List Str → Str
  | [] => []
  | [l] => l
  | l :: ls => l ++ '\n' :: joinLines ls

/-- Python str.strip, left part: drop leading whitespace. -/
def lstrip (s : Str) : Str := s.dropWhile isSpaceChar

/-- Python str.strip, right part: drop trailing whitespace. -/
def rstrip (s : Str) : Str := (lstrip s.reverse).reverse

/-- Python str.strip: drop whitespace at both ends. -/
def stripStr (s : Str) : Str := rstrip (lstrip s)

/-- Accumulator pass of words (Python str.split with no separator): the
accumulator holds the current token reversed. -/
def wordsAux : Str → Str → List Str
  | [], acc => if acc.isEmpty then [] else [acc.reverse]
  | c :: rest, acc =>
      if isSpaceChar c then
        if acc.isEmpty then wordsAux rest [] else acc.reverse :: wordsAux rest []
      else wordsAux rest (c :: acc)

/-- Python str.split with no separator: maximal runs of non-whitespace. -/
def words (s : Str) : List Str := wordsAux s []

/-- Python separator.join with a single-space separator. -/
def joinSp : List Str → Str
  | [] => []
  | [t] => t
  | t :: ts => t ++ ' ' :: joinSp ts

/-- The body of the per-line loop of cleaning.py clean_text: drop a line
whose stripped content is only digits, collapse internal whitespace of a
nonblank line, keep a blank line as empty. -/
def cleanLine (line : Str) : Option Str :=
  let stripped := stripStr line
  if pythonIsDigit stripped then none
  else if stripped.isEmpty then some []
  else some (joinSp (words stripped))

/-- Drop leading newline characters. -/
def dropNL (s : Str) : Str := s.dropWhile (fun c => c == '\n')

/-- A maximal run of k newline characters after the replacement of
three-or-more newlines by two. -/
def emitNL (k : Nat) : Str :=
  if 3 ≤ k then ['\n', '\n'] else List.replicate k '\n'

/-- Structural scanner for cleaning.py re.sub of three-or-more newlines
by two: the counter carries the number of newline characters of the run
being read; each maximal run of at least three newlines is emitted as
exactly two. -/
def collapseNLAux : Nat → Str → Str
  | k, [] => emitNL k
  | k, '\n' :: rest => collapseNLAux (k + 1) rest
  | k, c :: rest => emitNL k ++ c :: collapseNLAux 0 rest

/-- cleaning.py re.sub of three-or-more newlines by two: every maximal
run of at least three newline characters becomes exactly two. -/
def collapseNL (s : Str) : Str := collapseNLAux 0 s

/-- cleaning.py clean_text: ligature normalization, line-ending
normalization, the per-line loop, blank-line collapsing, final trim. -/
def cleanText (raw : Str) : Str :=
  let text := normalizeLigatures raw
  let text := normalizeEOL text
  let cleanedLines := (splitLines text).filterMap cleanLine
  stripStr (collapseNL (joinLines cleanedLines))

/-- The number of leading newline characters. -/
def countNL (s : Str) : Nat := (s.takeWhile (fun c => c == '\n')).length

/-- The first line of a string: everything before the first newline. -/
def firstLine (s : Str) : Str := s.takeWhile (fun c => c != '\n')

/-- The remainder of a string from its first newline on (empty when the
string has a single line). -/
def afterFirst (s : Str) : Str := s.dropWhile (fun c => c != '\n')

/-- The nonempty lines of a string, in order. -/
def nonEmptyLines (s : Str) : List Str :=
  (splitLines s).filter (fun l => !l.isEmpty)

/-- Whether a string contains a run of three consecutive newlines. -/
def has3NL : Str → Bool
  | '\n' :: '\n' :: '\n' :: _ => true
  | _ :: rest => has3NL rest
  | [] => false

/-- Written from the wording of the spec: replace every maximal run of
three-or-more consecutive newline characters by exactly two, phrased by
leftmost maximal-run scanning rather than by the run counter of
collapseNL. -/
def specCollapse : Str → Str
  | '\n' :: rest =>
      (if 1 + countNL rest ≥ 3 then ['\n', '\n']
       else List.replicate (1 + countNL rest) '\n') ++ specCollapse (dropNL rest)
  | c :: rest => c :: specCollapse rest
  | [] => []
termination_by s => s.length
decreasing_by
  · simp only [List.length_cons]
    have h := (List.dropWhile_suffix (l := rest) (fun c => c == '\n')).length_le
    simp only [dropNL]
    omega
  · simp only [List.length_cons]; omega

/-- Written from the wording of the spec (section 6, TextNormalizer.clean):
normalize line endings to newline; expand the typographic ligatures via
compatibility normalization followed by the explicit replacement map; drop
every line whose trimmed content is only digits; collapse internal
whitespace runs to a single space per line; collapse three-or-more
consecutive newlines to two; trim leading and trailing whitespace. -/
def specClean (raw : Str) : Str :=
  let s := normalizeEOL raw
  let s := normalizeLigatures s
  let ls := (splitLines s).filter (fun l => !pythonIsDigit (stripStr l))
  let ls := ls.map (fun l =>
    if (stripStr l).isEmpty then [] else joinSp (words (stripStr l)))
  stripStr (specCollapse (joinLines ls))

/-! ### Documents, artifacts and the projection (db.py, models.py,
es_client.py) -/

/-- A row of the documents table. -/
structure DocumentRow where
  id : Nat
  file_path : Str
  created_at : Nat
deriving DecidableEq, Repr

/-- The JSONB content column of an enhancement, modelled as a record of
the keys the repository reads and writes; a missing key and an explicit
null both appear as none, matching dict.get. -/
structure Content where
  text : Option Str := none
  raw_length : Option Nat := none
  cleaned_length : Option Nat := none
  title : Option Str := none
  venue : Option Str := none
  year : Option Int := none
  tags : Option (List Str) := none
  abstract : Option Str := none
  authors : Option (List Str) := none
  keywords : Option (List Str) := none
  doi : Option Str := none
  arxiv_id : Option Str := none
  item_type : Option Str := none
deriving DecidableEq, Repr

/-- The empty dict returned by models.py get_metadata when no
PAPERPILE_METADATA artifact exists. -/
def emptyContent : Content := {}

/-- db.py _sanitize_for_jsonb on a string leaf: remove null bytes. -/
def sanitizeStr (s : Str) : Str := s.filter (fun c => c ≠ '\x00')

/-- db.py _sanitize_for_jsonb applied to a content tree: every string
leaf has its null bytes removed; other leaves are unchanged. -/
def sanitizeContent (c : Content) : Content :=
  { c with
    text := c.text.map sanitizeStr,
    title := c.title.map sanitizeStr,
    venue := c.venue.map sanitizeStr,
    tags := c.tags.map (List.map sanitizeStr),
    abstract := c.abstract.map sanitizeStr,
    authors := c.authors.map (List.map sanitizeStr),
    keywords := c.keywords.map (List.map sanitizeStr),
    doi := c.doi.map sanitizeStr,
    arxiv_id := c.arxiv_id.map sanitizeStr,
    item_type := c.item_type.map sanitizeStr }

/-- A row of the enhancements table. -/
structure EnhancementRow where
  id : Nat
  document_id : Nat
  enhancement_type : EnhancementType
  content : Content
  robot_id : Str
  created_at : Nat
deriving DecidableEq, Repr

/-- db.py create_enhancement: INSERT ... ON CONFLICT (document_id,
enhancement_type, robot_id) DO UPDATE SET content = EXCLUDED.content,
created_at = NOW() RETURNING id, with content sanitized first. -/
def createEnhancement (tbl : List EnhancementRow) (docId : Nat)
    (ty : EnhancementType) (content : Content) (robotId : Str)
    (now newId : Nat) : Nat × List EnhancementRow :=
  let sanitized := sanitizeContent content
  match tbl.find? (fun e => e.document_id == docId &&
      e.enhancement_type == ty && e.robot_id == robotId) with
  | some e =>
      (e.id,
        tbl.map (fun e2 =>
          if e2.document_id == docId && e2.enhancement_type == ty &&
              e2.robot_id == robotId then
            { e2 with content := sanitized, created_at := now }
          else e2))
  | none =>
      (newId,
        tbl ++ [{ id := newId, document_id := docId,
                  enhancement_type := ty, content := sanitized,
                  robot_id := robotId, created_at := now }])

/-- db.py fetch_document_by_id: lookup on the primary key. -/
def fetchDocumentById (docs : List DocumentRow) (docId : Nat) :
    Option DocumentRow :=
  docs.find? (fun d => d.id == docId)

/-- models.py get_full_text: the text field of the first FULL_TEXT
artifact of the list, in list order. -/
def getFullText (enhancements : List EnhancementRow) : Option Str :=
  match enhancements.find? (fun e =>
      e.enhancement_type == EnhancementType.FULL_TEXT) with
  | some e => e.content.text
  | none => none

/-- models.py get_metadata: the content of the first PAPERPILE_METADATA
artifact of the list, in list order, else the empty dict. -/
def getMetadata (enhancements : List EnhancementRow) : Content :=
  match enhancements.find? (fun e =>
      e.enhancement_type == EnhancementType.PAPERPILE_METADATA) with
  | some e => e.content
  | none => emptyContent

/-- The _source record emitted for one document by es_client.py
bulk_index. -/
structure ESRecord where
  title : Option Str
  abstract : Option Str
  authors : List Str
  keywords : List Str
  venue : Option Str
  year : Option Int
  tags : List Str
  item_type : Option Str
  doi : Option Str
  arxiv_id : Option Str
  file_path : Str
  full_text : Str
deriving DecidableEq, Repr

/-- es_client.py bulk_index, body of generate_actions for one (document,
enhancements) pair: full_text from get_full_text with empty-string
fallback, bibliographic fields from get_metadata. -/
def projectRecord (doc : DocumentRow) (enhancements : List EnhancementRow) :
    ESRecord :=
  let fullText := (getFullText enhancements).getD []
  let metadata := getMetadata enhancements
  { title := metadata.title
    abstract := metadata.abstract
    authors := metadata.authors.getD []
    keywords := metadata.keywords.getD []
    venue := metadata.venue
    year := metadata.year
    tags := metadata.tags.getD []
    item_type := metadata.item_type
    doi := metadata.doi
    arxiv_id := metadata.arxiv_id
    file_path := doc.file_path
    full_text := fullText }

/-- db.py fetch_documents_with_enhancements orders each document's
artifact list by created_at ascending; the predicate records that
ordering for a list handed to the projection. -/
def orderedByCreation (enhancements : List EnhancementRow) : Prop :=
  enhancements.Pairwise (fun a b => a.created_at ≤ b.created_at)

/-! ### robots/pdf_extractor.py -/

/-- The whole-database state the robots operate on. -/
structure DB where
  documents : List DocumentRow
  enhancements : List EnhancementRow
  pendings : List PendingRow
deriving DecidableEq, Repr

/-- Replace the pending_enhancements table of a database state. -/
def withPendings (db : DB) (p : List PendingRow) : DB :=
  { db with pendings := p }

/-- robots/pdf_extractor.py ROBOT_ID. -/
def pdfExtractorRobotId : Str := "pdf-extractor".data

/-- robots/pdf_extractor.py process_one.  The claim choice stands for the
row selection of fetch_next_pending and extractResult for the outcome of
the external extract_text call (error message on ExtractionError or any
other exception, raw text on success).  Returns the did-work flag and the
new database state. -/
def pdfExtractorProcessOne (db : DB) (choice : Option PendingRow)
    (extractResult : Except Str Str) (now newEnhId : Nat) : Bool × DB :=
  match fetchNextPending db.pendings now choice with
  | (none, pendings1) => (false, withPendings db pendings1)
  | (some pending, pendings1) =>
    match fetchDocumentById db.documents pending.document_id with
    | none =>
        (true, withPendings db (updatePendingStatus pendings1 pending.id
          FAILED (some "Document not found".data) now))
    | some doc =>
      match extractResult with
      | Except.error msg =>
          (true, withPendings db (updatePendingStatus pendings1 pending.id
            FAILED (some msg) now))
      | Except.ok rawText =>
        if (stripStr rawText).isEmpty then
          (true, withPendings db (updatePendingStatus pendings1 pending.id
            FAILED (some "Empty text extracted".data) now))
        else
          let cleaned := cleanText rawText
          if (stripStr cleaned).isEmpty then
            (true, withPendings db (updatePendingStatus pendings1 pending.id
              FAILED (some "Empty text after cleaning".data) now))
          else
            let pendings2 :=
              updatePendingStatus pendings1 pending.id IMPORTING none now
            let content : Content :=
              { text := some cleaned, raw_length := some rawText.length,
                cleaned_length := some cleaned.length }
            let enhancements2 := (createEnhancement db.enhancements doc.id
              EnhancementType.FULL_TEXT content pdfExtractorRobotId
              now newEnhId).2
            let pendings3 :=
              updatePendingStatus pendings2 pending.id COMPLETED none now
            (true, DB.mk db.documents enhancements2 pendings3)

/-! ### robots/paperpile_sync.py -/

/-- A parsed manifest row (robots/paperpile_sync.py ManifestRow). -/
structure ManifestRow where
  file_name : Str
  title : Option Str := none
  venue : Option Str := none
  year : Option Int := none
  tags : List Str := []
  abstract : Option Str := none
  authors : List Str := []
  keywords : List Str := []
  doi : Option Str := none
  arxiv_id : Option Str := none
  item_type : Option Str := none
deriving DecidableEq, Repr

/-- The manifest lookup dict built by load_manifest, keyed by lower-cased
file name. -/
abbrev ManifestMap := List (Str × ManifestRow)

/-- Python dict.get on the manifest map. -/
def manifestGet (m : ManifestMap) (key : Str) : Option ManifestRow :=
  (m.find? (fun p => p.1 == key)).map (fun p => p.2)

/-- Python str.lower, modelled charwise. -/
def lowerStr (s : Str) : Str := s.map Char.toLower

/-- pathlib Path.name: the final component of the path. -/
def baseName (p : Str) : Str :=
  (p.reverse.takeWhile (fun c => c ≠ '/')).reverse

/-- Scanner for one match of the duplicate-suffix regex at the current
position: a parenthesized nonempty digit run; returns the rest of the
input past the closing parenthesis. -/
def parenDigits (s : Str) : Option Str :=
  if (s.takeWhile isDigitChar).isEmpty then none
  else match s.dropWhile isDigitChar with
    | ')' :: rest2 => some rest2
    | _ => none

/-- re.search of the duplicate-suffix pattern: does a parenthesized digit
run occur anywhere. -/
def hasParenDigits : Str → Bool
  | [] => false
  | '(' :: rest =>
      match parenDigits rest with
      | some _ => true
      | none => hasParenDigits rest
  | _ :: rest => hasParenDigits rest

/-- Structural scanner for the duplicate-suffix substitution; the fuel
argument only bounds the recursion depth and is set to the input length,
which one scanning step never outruns. -/
def subParenFuel : Nat → Str → Str
  | 0, s => s
  | _ + 1, [] => []
  | fuel + 1, '(' :: rest =>
      match parenDigits rest with
      | some rest2 => subParenFuel fuel rest2
      | none => '(' :: subParenFuel fuel rest
  | fuel + 1, c :: rest => c :: subParenFuel fuel rest

/-- re.sub of the duplicate-suffix pattern by the empty string: drop
every leftmost non-overlapping parenthesized digit run. -/
def subParenDigits (s : Str) : Str := subParenFuel s.length s

/-- Python key.replace of two spaces by one: leftmost, non-overlapping. -/
def replaceDoubleSpace : Str → Str
  | ' ' :: ' ' :: rest => ' ' :: replaceDoubleSpace rest
  | c :: rest => c :: replaceDoubleSpace rest
  | [] => []

/-- robots/paperpile_sync.py _lookup_manifest: direct lookup of the
lower-cased name, then the duplicate-suffix fallback. -/
def lookupManifest (fileName : Str) (m : ManifestMap) : Option ManifestRow :=
  let key := lowerStr fileName
  match manifestGet m key with
  | some row => some row
  | none =>
      if hasParenDigits key then
        manifestGet m (stripStr (replaceDoubleSpace (subParenDigits key)))
      else none

/-- robots/paperpile_sync.py ROBOT_ID. -/
def paperpileRobotId : Str := "paperpile-sync".data

/-- The content dict written by paperpile_sync.process_one on a manifest
hit. -/
def paperpileContent (row : ManifestRow) : Content :=
  { title := row.title, venue := row.venue, year := row.year,
    tags := some row.tags, abstract := row.abstract,
    authors := some row.authors, keywords := some row.keywords,
    doi := row.doi, arxiv_id := row.arxiv_id,
    item_type := row.item_type }

/-- robots/paperpile_sync.py process_one: claim a unit, discard when the
document vanished, look the file name up in the manifest, then either
discard with the no-entry error or write the artifact and complete.
Returns the loop outcome string and the new database state. -/
def paperpileProcessOne (manifestMap : ManifestMap) (db : DB)
    (choice : Option PendingRow) (now newEnhId : Nat) :
    Option Str × DB :=
  match fetchNextPending db.pendings now choice with
  | (none, pendings1) => (none, withPendings db pendings1)
  | (some pending, pendings1) =>
    match fetchDocumentById db.documents pending.document_id with
    | none =>
        (some "discarded".data, withPendings db
          (updatePendingStatus pendings1 pending.id DISCARDED none now))
    | some doc =>
      match lookupManifest (baseName doc.file_path) manifestMap with
      | none =>
          (some "discarded".data, withPendings db
            (updatePendingStatus pendings1 pending.id DISCARDED
              (some "No manifest entry found".data) now))
      | some row =>
          let pendings2 :=
            updatePendingStatus pendings1 pending.id IMPORTING none now
          let enhancements2 := (createEnhancement db.enhancements doc.id
            EnhancementType.PAPERPILE_METADATA (paperpileContent row)
            paperpileRobotId now newEnhId).2
          let pendings3 :=
            updatePendingStatus pendings2 pending.id COMPLETED none now
          (some "completed".data, DB.mk db.documents enhancements2 pendings3)

/-! ### Helper lemmas -/

theorem isCandidate_iff (ty : EnhancementType) (r : PendingRow) :
    isCandidate ty r = true ↔ r.status = PENDING ∧ r.enhancement_type = ty := by
  simp [isCandidate]

theorem find?_map_of_id_preserved (g : PendingRow → PendingRow)
    (hg : ∀ r, (g r).id = r.id) (tbl : List PendingRow) (pid : Nat) :
    (tbl.map g).find? (fun r => r.id == pid) =
      (tbl.find? (fun r => r.id == pid)).map g := by
  induction tbl with
  | nil => rfl
  | cons a t ih =>
      simp only [List.map_cons, List.find?]
      rw [hg a]
      by_cases h : a.id == pid
      · simp [h]
      · simp only [Bool.not_eq_true] at h
        simp [h, ih]

theorem find?_id_of_mem_nodup (tbl : List PendingRow) (p : PendingRow)
    (hp : p ∈ tbl) (hnd : (tbl.map PendingRow.id).Nodup) :
    tbl.find? (fun r => r.id == p.id) = some p := by
  induction tbl with
  | nil => cases hp
  | cons a t ih =>
      simp only [List.map_cons, List.nodup_cons] at hnd
      rcases List.mem_cons.mp hp with h | h
      · subst h
        simp [List.find?]
      · have ha : a.id ≠ p.id := by
          intro he
          exact hnd.1 (he ▸ List.mem_map_of_mem PendingRow.id h)
        simp only [List.find?]
        have : (a.id == p.id) = false := by simp [ha]
        simp [this, ih h hnd.2]

/-! ### C1 -/

/-- C1: the claim fails on the code.  update_pending_status performs an
unconditional UPDATE: at the failing input, the transition PENDING to
COMPLETED is not an edge of the transition table (guard_transition would
report StateTransitionError with current PENDING, target COMPLETED,
allowed set containing only PROCESSING), yet update_pending_status
changes the row's status to COMPLETED and reports no error. -/
theorem set_status_does_not_guard :
    canTransitionTo PENDING COMPLETED = false ∧
    guardTransition PENDING COMPLETED =
      Except.error { current := PENDING, target := COMPLETED,
                     allowed := [PROCESSING] } ∧
    updatePendingStatus
        [{ id := 1, document_id := 1,
           enhancement_type := EnhancementType.FULL_TEXT,
           status := PENDING, created_at := 0, updated_at := 0,
           attempts := 0, last_error := none }] 1 COMPLETED none 7 =
      [{ id := 1, document_id := 1,
         enhancement_type := EnhancementType.FULL_TEXT,
         status := COMPLETED, created_at := 0, updated_at := 7,
         attempts := 0, last_error := none }] := by
  refine ⟨by decide, rfl, by decide⟩

/-! ### C3 -/

/-- C3: fetch_next_pending returns absent exactly when no PENDING row of
the requested enhancement type exists, and in that case changes no row;
otherwise it returns a row of the table that was PENDING and whose
returned state has status PROCESSING, attempts increased by exactly one
and updated_at refreshed, all applied by the one-step claim function. -/
theorem claim_next_spec (tbl : List PendingRow) (ty : EnhancementType)
    (now : Nat) (choice : Option PendingRow)
    (hv : validChoice tbl ty choice) :
    ((fetchNextPending tbl now choice).1 = none ↔
      ∀ r ∈ tbl, isCandidate ty r = false) ∧
    ((fetchNextPending tbl now choice).1 = none →
      (fetchNextPending tbl now choice).2 = tbl) ∧
    (∀ p, choice = some p →
      p ∈ tbl ∧ p.status = PENDING ∧ p.enhancement_type = ty ∧
      (fetchNextPending tbl now choice).1 =
        some { p with status := PROCESSING, attempts := p.attempts + 1,
                      updated_at := now }) := by
  cases choice with
  | none =>
      refine ⟨⟨fun _ => hv, fun _ => rfl⟩, fun _ => rfl, ?_⟩
      intro p h
      cases h
  | some r =>
      have hsel : selectable tbl ty r := hv
      obtain ⟨hmem, hcand, _⟩ := hsel
      obtain ⟨hst, hty⟩ := (isCandidate_iff ty r).mp hcand
      constructor
      · constructor
        · intro h
          simp [fetchNextPending] at h
        · intro h
          have := h r hmem
          rw [hcand] at this
          cases this
      constructor
      · intro h
        simp [fetchNextPending] at h
      · intro p hp
        injection hp with hp
        subst hp
        exact ⟨hmem, hst, hty, rfl⟩

/-- Witness for C3 at a concrete one-row table. -/
theorem claim_next_spec_witness :
    (fetchNextPending
        [{ id := 1, document_id := 2,
           enhancement_type := EnhancementType.FULL_TEXT,
           status := PENDING, created_at := 0, updated_at := 0,
           attempts := 0, last_error := none }] 5
        (some { id := 1, document_id := 2,
                enhancement_type := EnhancementType.FULL_TEXT,
                status := PENDING, created_at := 0, updated_at := 0,
                attempts := 0, last_error := none })).1 =
      some { id := 1, document_id := 2,
             enhancement_type := EnhancementType.FULL_TEXT,
             status := PROCESSING, created_at := 0, updated_at := 5,
             attempts := 1, last_error := none } := by
  have h := claim_next_spec
    [{ id := 1, document_id := 2,
       enhancement_type := EnhancementType.FULL_TEXT,
       status := PENDING, created_at := 0, updated_at := 0,
       attempts := 0, last_error := none }]
    EnhancementType.FULL_TEXT 5
    (some { id := 1, document_id := 2,
            enhancement_type := EnhancementType.FULL_TEXT,
            status := PENDING, created_at := 0, updated_at := 0,
            attempts := 0, last_error := none })
    (by decide)
  exact (h.2.2 _ rfl).2.2.2

/-! ### C4 -/

/-- C4 as amended: enqueue is an upsert.  Without an existing
(document, type) row a fresh PENDING row with attempts 0 and no
last_error is appended; with an existing row the statement returns its id
and maps the conflicting row through the DO UPDATE SET clause, which
resets a retriable status to PENDING, keeps an in-flight status, bumps
updated_at to NOW in both cases, and leaves attempts, last_error,
created_at and every non-conflicting row unchanged. -/
theorem enqueue_upsert_spec (tbl : List PendingRow) (docId : Nat)
    (ty : EnhancementType) (now newId : Nat) :
    (findConflict tbl docId ty = none →
      createPendingEnhancement tbl docId ty now newId =
        (newId, tbl ++ [{ id := newId, document_id := docId,
                          enhancement_type := ty, status := PENDING,
                          created_at := now, updated_at := now,
                          attempts := 0, last_error := none }])) ∧
    (∀ r0, findConflict tbl docId ty = some r0 →
      createPendingEnhancement tbl docId ty now newId =
        (r0.id, tbl.map (upsertRow docId ty now))) ∧
    (∀ r : PendingRow, r.document_id = docId → r.enhancement_type = ty →
      (r.status ∈ retriableStates →
        upsertRow docId ty now r =
          { r with status := PENDING, updated_at := now }) ∧
      (r.status ∉ retriableStates →
        upsertRow docId ty now r = { r with updated_at := now })) ∧
    (∀ r : PendingRow, ¬(r.document_id = docId ∧ r.enhancement_type = ty) →
      upsertRow docId ty now r = r) := by
  refine ⟨?_, ?_, ?_, ?_⟩
  · intro h
    simp [createPendingEnhancement, h]
  · intro r0 h
    simp [createPendingEnhancement, h]
  · intro r hdoc hty
    have hcond : (r.document_id == docId && r.enhancement_type == ty) = true := by
      simp [hdoc, hty]
    constructor
    · intro hret
      have hc : retriableStates.contains r.status = true :=
        List.contains_iff_exists_mem_beq.mpr ⟨r.status, hret, by simp⟩
      simp [upsertRow, hcond, upsertStatus, hc]
      intro h2
      exact absurd hret h2
    · intro hret
      have hc : retriableStates.contains r.status = false := by
        by_contra h2
        rw [Bool.not_eq_false] at h2
        rcases List.contains_iff_exists_mem_beq.mp h2 with ⟨a, ha, hb⟩
        exact hret ((beq_iff_eq.mp hb) ▸ ha)
      simp [upsertRow, hcond, upsertStatus, hc]
      intro h2
      exact absurd h2 hret
  · intro r h
    have hcond : (r.document_id == docId && r.enhancement_type == ty) = false := by
      rcases not_and_or.mp h with h1 | h1 <;> simp [h1] <;> omega
    simp [upsertRow, hcond]

/-- Witness for C4: enqueue on an empty table inserts a PENDING row. -/
theorem enqueue_upsert_spec_witness :
    createPendingEnhancement [] 1 EnhancementType.FULL_TEXT 3 7 =
      (7, [{ id := 7, document_id := 1,
             enhancement_type := EnhancementType.FULL_TEXT,
             status := PENDING, created_at := 3, updated_at := 3,
             attempts := 0, last_error := none }]) :=
  (enqueue_upsert_spec [] 1 EnhancementType.FULL_TEXT 3 7).1 rfl

/-- Counterexample to C4 as stated: enqueue on an in-flight (PROCESSING)
row does not leave the record untouched; the updated_at field is bumped
even though status, attempts and last_error are kept. -/
theorem enqueue_in_flight_not_untouched :
    (createPendingEnhancement
        [{ id := 1, document_id := 1,
           enhancement_type := EnhancementType.FULL_TEXT,
           status := PROCESSING, created_at := 0, updated_at := 0,
           attempts := 2, last_error := some ['e'] }] 1
        EnhancementType.FULL_TEXT 9 5).2 ≠
      [{ id := 1, document_id := 1,
         enhancement_type := EnhancementType.FULL_TEXT,
         status := PROCESSING, created_at := 0, updated_at := 0,
         attempts := 2, last_error := some ['e'] }] ∧
    (createPendingEnhancement
        [{ id := 1, document_id := 1,
           enhancement_type := EnhancementType.FULL_TEXT,
           status := PROCESSING, created_at := 0, updated_at := 0,
           attempts := 2, last_error := some ['e'] }] 1
        EnhancementType.FULL_TEXT 9 5).2 =
      [{ id := 1, document_id := 1,
         enhancement_type := EnhancementType.FULL_TEXT,
         status := PROCESSING, created_at := 0, updated_at := 9,
         attempts := 2, last_error := some ['e'] }] := by
  refine ⟨by decide, by decide⟩

/-! ### C6 -/

/-- C6 as amended: a row handed out by claim_next is a PENDING row of the
requested type whose creation time is minimal among the PENDING rows of
that type; rows of other types are never returned.  Between equal
creation times the SQL fixes no order (no id tie-break). -/
theorem claim_next_order_spec (tbl : List PendingRow)
    (ty : EnhancementType) (now : Nat) (r : PendingRow)
    (h : selectable tbl ty r) :
    r ∈ tbl ∧ r.status = PENDING ∧ r.enhancement_type = ty ∧
    (∀ r2 ∈ tbl, r2.status = PENDING → r2.enhancement_type = ty →
      r.created_at ≤ r2.created_at) ∧
    (fetchNextPending tbl now (some r)).1 = some (claimUpdate now r) := by
  obtain ⟨hmem, hcand, hmin⟩ := h
  obtain ⟨hst, hty⟩ := (isCandidate_iff ty r).mp hcand
  refine ⟨hmem, hst, hty, ?_, rfl⟩
  intro r2 h2 hst2 hty2
  exact hmin r2 h2 ((isCandidate_iff ty r2).mpr ⟨hst2, hty2⟩)

/-- Witness for C6 amended, at a two-row table with distinct creation
times. -/
theorem claim_next_order_spec_witness :
    (fetchNextPending
        [{ id := 1, document_id := 1,
           enhancement_type := EnhancementType.FULL_TEXT,
           status := PENDING, created_at := 4, updated_at := 0,
           attempts := 0, last_error := none },
         { id := 2, document_id := 2,
           enhancement_type := EnhancementType.FULL_TEXT,
           status := PENDING, created_at := 9, updated_at := 0,
           attempts := 0, last_error := none }] 11
        (some { id := 1, document_id := 1,
                enhancement_type := EnhancementType.FULL_TEXT,
                status := PENDING, created_at := 4, updated_at := 0,
                attempts := 0, last_error := none })).1 =
      some (claimUpdate 11
        { id := 1, document_id := 1,
          enhancement_type := EnhancementType.FULL_TEXT,
          status := PENDING, created_at := 4, updated_at := 0,
          attempts := 0, last_error := none }) := by
  have h := claim_next_order_spec
    [{ id := 1, document_id := 1,
       enhancement_type := EnhancementType.FULL_TEXT,
       status := PENDING, created_at := 4, updated_at := 0,
       attempts := 0, last_error := none },
     { id := 2, document_id := 2,
       enhancement_type := EnhancementType.FULL_TEXT,
       status := PENDING, created_at := 9, updated_at := 0,
       attempts := 0, last_error := none }]
    EnhancementType.FULL_TEXT 11
    { id := 1, document_id := 1,
      enhancement_type := EnhancementType.FULL_TEXT,
      status := PENDING, created_at := 4, updated_at := 0,
      attempts := 0, last_error := none } (by decide)
  exact h.2.2.2.2

/-- Counterexample to C6 as stated: with two PENDING rows of equal
creation time, the selection criterion of the SQL (minimal created_at
only, no ORDER BY id) admits the row with the larger id, so claim_next is
not guaranteed to return the smaller id on ties. -/
theorem claim_next_no_id_tiebreak :
    selectable
      [{ id := 1, document_id := 1,
         enhancement_type := EnhancementType.FULL_TEXT,
         status := PENDING, created_at := 5, updated_at := 0,
         attempts := 0, last_error := none },
       { id := 2, document_id := 2,
         enhancement_type := EnhancementType.FULL_TEXT,
         status := PENDING, created_at := 5, updated_at := 0,
         attempts := 0, last_error := none }]
      EnhancementType.FULL_TEXT
      { id := 2, document_id := 2,
        enhancement_type := EnhancementType.FULL_TEXT,
        status := PENDING, created_at := 5, updated_at := 0,
        attempts := 0, last_error := none } ∧
    (fetchNextPending
        [{ id := 1, document_id := 1,
           enhancement_type := EnhancementType.FULL_TEXT,
           status := PENDING, created_at := 5, updated_at := 0,
           attempts := 0, last_error := none },
         { id := 2, document_id := 2,
           enhancement_type := EnhancementType.FULL_TEXT,
           status := PENDING, created_at := 5, updated_at := 0,
           attempts := 0, last_error := none }] 9
        (some { id := 2, document_id := 2,
                enhancement_type := EnhancementType.FULL_TEXT,
                status := PENDING, created_at := 5, updated_at := 0,
                attempts := 0, last_error := none })).1 =
      some { id := 2, document_id := 2,
             enhancement_type := EnhancementType.FULL_TEXT,
             status := PROCESSING, created_at := 5, updated_at := 9,
             attempts := 1, last_error := none } := by
  refine ⟨by decide, by decide⟩

/-! ### C10 -/

/-- C10: update_pending_status overwrites the row's last_error with the
supplied value (which defaults to null in the Python signature, so an
update issued without an error message erases a stored error string), and
modifies nothing besides status, last_error and updated_at; rows with a
different id are untouched. -/
theorem set_status_frame (tbl : List PendingRow) (pendingId : Nat)
    (st : PendingEnhancementStatus) (err : Option Str) (now : Nat) :
    updatePendingStatus tbl pendingId st err now =
      tbl.map (setStatusRow pendingId st err now) ∧
    (∀ r : PendingRow, r.id = pendingId →
      (setStatusRow pendingId st err now r).status = st ∧
      (setStatusRow pendingId st err now r).last_error = err ∧
      (setStatusRow pendingId st err now r).updated_at = now ∧
      (setStatusRow pendingId st err now r).id = r.id ∧
      (setStatusRow pendingId st err now r).document_id = r.document_id ∧
      (setStatusRow pendingId st err now r).enhancement_type =
        r.enhancement_type ∧
      (setStatusRow pendingId st err now r).created_at = r.created_at ∧
      (setStatusRow pendingId st err now r).attempts = r.attempts) ∧
    (∀ r : PendingRow, r.id ≠ pendingId →
      setStatusRow pendingId st err now r = r) := by
  refine ⟨rfl, ?_, ?_⟩
  · intro r h
    simp [setStatusRow, h]
  · intro r h
    simp [setStatusRow, h]

/-- Witness for C10 at a concrete row holding a previous error: an update
to IMPORTING without a message erases the error. -/
theorem set_status_frame_witness :
    updatePendingStatus
        [{ id := 4, document_id := 1,
           enhancement_type := EnhancementType.FULL_TEXT,
           status := PROCESSING, created_at := 0, updated_at := 1,
           attempts := 3, last_error := some ['b', 'a', 'd'] }] 4
        IMPORTING none 2 =
      [{ id := 4, document_id := 1,
         enhancement_type := EnhancementType.FULL_TEXT,
         status := IMPORTING, created_at := 0, updated_at := 2,
         attempts := 3, last_error := none }] := by
  rw [(set_status_frame
    [{ id := 4, document_id := 1,
       enhancement_type := EnhancementType.FULL_TEXT,
       status := PROCESSING, created_at := 0, updated_at := 1,
       attempts := 3, last_error := some ['b', 'a', 'd'] }] 4
    IMPORTING none 2).1]
  decide

/-! ### C2 -/

theorem find?_decomp {α : Type} (p : α → Bool) (l : List α) (e : α)
    (h : l.find? p = some e) :
    ∃ l1 l2, l = l1 ++ e :: l2 ∧ ∀ x ∈ l1, p x = false := by
  induction l with
  | nil => cases h
  | cons a t ih =>
      by_cases ha : p a
      · rw [List.find?_cons_of_pos _ ha] at h
        injection h with h
        subst h
        exact ⟨[], t, rfl, by simp⟩
      · rw [List.find?_cons_of_neg _ ha] at h
        obtain ⟨l1, l2, heq, hall⟩ := ih h
        refine ⟨a :: l1, l2, by simp [heq], ?_⟩
        intro x hx
        rcases List.mem_cons.mp hx with h2 | h2
        · subst h2; simpa using ha
        · exact hall x h2

theorem find?_min_created (p : EnhancementRow → Bool)
    (l : List EnhancementRow) (e : EnhancementRow)
    (h : orderedByCreation l) (hf : l.find? p = some e) :
    ∀ e2 ∈ l, p e2 = true → e.created_at ≤ e2.created_at := by
  obtain ⟨l1, l2, heq, hall⟩ := find?_decomp p l e hf
  subst heq
  intro e2 h2 hp2
  rcases List.mem_append.mp h2 with h3 | h3
  · rw [hall e2 h3] at hp2
    cases hp2
  · rcases List.mem_cons.mp h3 with h4 | h4
    · subst h4; exact le_refl _
    · have hsub : (e :: l2).Sublist (l1 ++ e :: l2) :=
        List.sublist_append_right l1 (e :: l2)
      have hp := (List.pairwise_cons.mp (h.sublist hsub)).1
      exact hp e2 h4

/-- C2 as amended: the artifact list handed to the projection is ordered
by creation time ascending, and the projected record's full_text comes
from the first, hence earliest-created, FULL_TEXT artifact of the list
(empty string when there is none); likewise the bibliographic record
comes from the earliest-created PAPERPILE_METADATA artifact. -/
theorem projection_earliest_spec (doc : DocumentRow)
    (enhancements : List EnhancementRow)
    (h : orderedByCreation enhancements) :
    ((∀ e ∈ enhancements,
        e.enhancement_type ≠ EnhancementType.FULL_TEXT) →
      (projectRecord doc enhancements).full_text = []) ∧
    (∀ e, enhancements.find? (fun x =>
        x.enhancement_type == EnhancementType.FULL_TEXT) = some e →
      e ∈ enhancements ∧
      e.enhancement_type = EnhancementType.FULL_TEXT ∧
      (projectRecord doc enhancements).full_text = e.content.text.getD [] ∧
      ∀ e2 ∈ enhancements,
        e2.enhancement_type = EnhancementType.FULL_TEXT →
          e.created_at ≤ e2.created_at) ∧
    (∀ e, enhancements.find? (fun x =>
        x.enhancement_type == EnhancementType.PAPERPILE_METADATA) = some e →
      getMetadata enhancements = e.content ∧
      ∀ e2 ∈ enhancements,
        e2.enhancement_type = EnhancementType.PAPERPILE_METADATA →
          e.created_at ≤ e2.created_at) := by
  refine ⟨?_, ?_, ?_⟩
  · intro hnone
    have hf : enhancements.find? (fun x =>
        x.enhancement_type == EnhancementType.FULL_TEXT) = none := by
      rw [List.find?_eq_none]
      intro x hx
      simpa using hnone x hx
    simp [projectRecord, getFullText, hf]
  · intro e hf
    have hmem := List.mem_of_find?_eq_some hf
    have hty : e.enhancement_type = EnhancementType.FULL_TEXT := by
      have := List.find?_some hf
      simpa using this
    refine ⟨hmem, hty, ?_, ?_⟩
    · simp [projectRecord, getFullText, hf]
    · intro e2 h2 hty2
      exact find?_min_created _ enhancements e h hf e2 h2 (by simp [hty2])
  · intro e hf
    refine ⟨by simp [getMetadata, hf], ?_⟩
    intro e2 h2 hty2
    exact find?_min_created _ enhancements e h hf e2 h2 (by simp [hty2])

/-- Witness for C2 amended, with one FULL_TEXT artifact. -/
theorem projection_earliest_spec_witness :
    (projectRecord { id := 1, file_path := ['p'], created_at := 0 }
        [{ id := 1, document_id := 1,
           enhancement_type := EnhancementType.FULL_TEXT,
           content := { text := some ['h', 'i'] },
           robot_id := ['r'], created_at := 1 }]).full_text = ['h', 'i'] := by
  have h := projection_earliest_spec
    { id := 1, file_path := ['p'], created_at := 0 }
    [{ id := 1, document_id := 1,
       enhancement_type := EnhancementType.FULL_TEXT,
       content := { text := some ['h', 'i'] },
       robot_id := ['r'], created_at := 1 }]
    (by constructor <;> simp)
  have h2 := (h.2.1
    { id := 1, document_id := 1,
      enhancement_type := EnhancementType.FULL_TEXT,
      content := { text := some ['h', 'i'] },
      robot_id := ['r'], created_at := 1 } (by decide)).2.2.1
  rw [h2]
  rfl

/-- Counterexample to C2 as stated: with two FULL_TEXT artifacts from
different robots, ordered by creation time ascending, the projected
full_text is the text of the earliest-created artifact, not of the
latest-created one. -/
theorem projection_takes_earliest_not_latest :
    orderedByCreation
      [{ id := 1, document_id := 1,
         enhancement_type := EnhancementType.FULL_TEXT,
         content := { text := some ['o', 'l', 'd'] },
         robot_id := ['a'], created_at := 1 },
       { id := 2, document_id := 1,
         enhancement_type := EnhancementType.FULL_TEXT,
         content := { text := some ['n', 'e', 'w'] },
         robot_id := ['b'], created_at := 2 }] ∧
    (1 : Nat) < 2 ∧
    (projectRecord { id := 1, file_path := ['p'], created_at := 0 }
        [{ id := 1, document_id := 1,
           enhancement_type := EnhancementType.FULL_TEXT,
           content := { text := some ['o', 'l', 'd'] },
           robot_id := ['a'], created_at := 1 },
         { id := 2, document_id := 1,
           enhancement_type := EnhancementType.FULL_TEXT,
           content := { text := some ['n', 'e', 'w'] },
           robot_id := ['b'], created_at := 2 }]).full_text =
      ['o', 'l', 'd'] ∧
    (['o', 'l', 'd'] : Str) ≠ ['n', 'e', 'w'] := by
  refine ⟨?_, by decide, by decide, by decide⟩
  constructor <;> simp

/-! ### C5 -/

/-- C5 as amended: when the owning document of a claimed unit is absent
at processing time, the paperpile-sync robot transitions the unit to
DISCARDED (with last_error cleared) and continues, but the pdf-extractor
robot transitions the unit to FAILED with last_error set to the message
Document not found and continues; neither robot touches the document or
artifact tables in that case. -/
theorem document_vanished_spec (db : DB) (m : ManifestMap)
    (extractResult : Except Str Str) (now newEnhId : Nat)
    (hnd : (db.pendings.map PendingRow.id).Nodup) :
    (∀ p, validChoice db.pendings EnhancementType.PAPERPILE_METADATA
        (some p) →
      fetchDocumentById db.documents p.document_id = none →
      (paperpileProcessOne m db (some p) now newEnhId).1 =
          some "discarded".data ∧
      (paperpileProcessOne m db (some p) now newEnhId).2.documents =
          db.documents ∧
      (paperpileProcessOne m db (some p) now newEnhId).2.enhancements =
          db.enhancements ∧
      (paperpileProcessOne m db (some p) now
          newEnhId).2.pendings.find? (fun r => r.id == p.id) =
        some { p with status := DISCARDED, attempts := p.attempts + 1,
                      updated_at := now, last_error := none }) ∧
    (∀ p, validChoice db.pendings EnhancementType.FULL_TEXT (some p) →
      fetchDocumentById db.documents p.document_id = none →
      (pdfExtractorProcessOne db (some p) extractResult now
          newEnhId).1 = true ∧
      (pdfExtractorProcessOne db (some p) extractResult now
          newEnhId).2.documents = db.documents ∧
      (pdfExtractorProcessOne db (some p) extractResult now
          newEnhId).2.enhancements = db.enhancements ∧
      (pdfExtractorProcessOne db (some p) extractResult now
          newEnhId).2.pendings.find? (fun r => r.id == p.id) =
        some { p with status := FAILED, attempts := p.attempts + 1,
                      updated_at := now,
                      last_error := some "Document not found".data }) := by
  have hfind : ∀ (p : PendingRow), p ∈ db.pendings →
      ∀ (st : PendingEnhancementStatus) (err : Option Str),
      (updatePendingStatus
          (db.pendings.map (fun r2 =>
            if r2.id = p.id then claimUpdate now r2 else r2))
          (claimUpdate now p).id st err now).find?
        (fun r => r.id == p.id) =
        some { p with status := st, attempts := p.attempts + 1,
                      updated_at := now, last_error := err } := by
    intro p hp st err
    unfold updatePendingStatus
    rw [find?_map_of_id_preserved _ (fun r => by
      simp only [setStatusRow]
      split <;> rfl)]
    rw [find?_map_of_id_preserved _ (fun r => by
      split <;> rfl)]
    rw [find?_id_of_mem_nodup db.pendings p hp hnd]
    simp only [Option.map_some']
    congr 1
    simp [claimUpdate, setStatusRow]
  constructor
  · intro p hv hdoc
    have hp : p ∈ db.pendings := hv.1
    have hd : fetchDocumentById db.documents
        (claimUpdate now p).document_id = none := hdoc
    refine ⟨?_, ?_, ?_, ?_⟩ <;>
      simp only [paperpileProcessOne, fetchNextPending, hd] <;>
      first
      | rfl
      | exact hfind p hp DISCARDED none
  · intro p hv hdoc
    have hp : p ∈ db.pendings := hv.1
    have hd : fetchDocumentById db.documents
        (claimUpdate now p).document_id = none := hdoc
    refine ⟨?_, ?_, ?_, ?_⟩ <;>
      simp only [pdfExtractorProcessOne, fetchNextPending, hd] <;>
      first
      | rfl
      | exact hfind p hp FAILED (some "Document not found".data)

/-- Witness for C5 amended, at a database holding one claimed metadata
unit whose document is absent. -/
theorem document_vanished_spec_witness :
    (paperpileProcessOne []
        { documents := [], enhancements := [],
          pendings := [{ id := 1, document_id := 42,
                         enhancement_type :=
                           EnhancementType.PAPERPILE_METADATA,
                         status := PENDING, created_at := 0,
                         updated_at := 0, attempts := 0,
                         last_error := none }] }
        (some { id := 1, document_id := 42,
                enhancement_type := EnhancementType.PAPERPILE_METADATA,
                status := PENDING, created_at := 0, updated_at := 0,
                attempts := 0, last_error := none }) 3 9).1 =
      some "discarded".data := by
  have h := (document_vanished_spec
    { documents := [], enhancements := [],
      pendings := [{ id := 1, document_id := 42,
                     enhancement_type := EnhancementType.PAPERPILE_METADATA,
                     status := PENDING, created_at := 0, updated_at := 0,
                     attempts := 0, last_error := none }] }
    [] (Except.ok ['x']) 3 9 (by decide)).1
    { id := 1, document_id := 42,
      enhancement_type := EnhancementType.PAPERPILE_METADATA,
      status := PENDING, created_at := 0, updated_at := 0,
      attempts := 0, last_error := none } (by decide) (by decide)
  exact h.1

/-- Counterexample to C5 as stated: the FULL_TEXT extractor robot marks a
claimed unit with a vanished document FAILED (last_error Document not
found), not DISCARDED. -/
theorem extractor_vanished_document_fails :
    (pdfExtractorProcessOne
        { documents := [], enhancements := [],
          pendings := [{ id := 1, document_id := 42,
                         enhancement_type := EnhancementType.FULL_TEXT,
                         status := PENDING, created_at := 0,
                         updated_at := 0, attempts := 0,
                         last_error := none }] }
        (some { id := 1, document_id := 42,
                enhancement_type := EnhancementType.FULL_TEXT,
                status := PENDING, created_at := 0, updated_at := 0,
                attempts := 0, last_error := none })
        (Except.ok ['x']) 3 9).2.pendings =
      [{ id := 1, document_id := 42,
         enhancement_type := EnhancementType.FULL_TEXT,
         status := FAILED, created_at := 0, updated_at := 3,
         attempts := 1, last_error := some "Document not found".data }] ∧
    FAILED ≠ DISCARDED := by
  refine ⟨by decide, by decide⟩

/-! ### C9 -/

theorem find?_claimed (tbl : List PendingRow) (p : PendingRow) (now : Nat)
    (hp : p ∈ tbl) (hnd : (tbl.map PendingRow.id).Nodup) :
    (tbl.map (fun r2 => if r2.id = p.id then claimUpdate now r2
        else r2)).find? (fun r => r.id == p.id) =
      some (claimUpdate now p) := by
  rw [find?_map_of_id_preserved _ (fun r => by split <;> rfl)]
  rw [find?_id_of_mem_nodup tbl p hp hnd]
  simp

theorem find?_after_set (tbl : List PendingRow) (q : PendingRow)
    (pid : Nat) (st : PendingEnhancementStatus) (err : Option Str)
    (now : Nat) (hq : tbl.find? (fun r => r.id == pid) = some q) :
    (updatePendingStatus tbl pid st err now).find?
        (fun r => r.id == pid) =
      some { q with status := st, last_error := err, updated_at := now } := by
  unfold updatePendingStatus
  rw [find?_map_of_id_preserved _ (fun r => by
    simp only [setStatusRow]
    split <;> rfl)]
  rw [hq]
  have hid : q.id = pid := by
    have := List.find?_some hq
    simpa using this
  simp [setStatusRow, hid]

/-- C9: the sync robot looks the document's lower-cased file name up in
the manifest map, retrying with every parenthesized digit group stripped
(and double spaces collapsed, ends trimmed) when the direct lookup misses
and the name contains such a group; on a hit it writes one artifact
carrying the manifest record through the artifact-store upsert and
completes the unit; on a miss it writes nothing and discards the unit
with last_error set to the no-manifest-entry message. -/
theorem paperpile_lookup_spec (m : ManifestMap) (db : DB)
    (p : PendingRow) (d : DocumentRow) (now newEnhId : Nat)
    (hnd : (db.pendings.map PendingRow.id).Nodup)
    (hv : validChoice db.pendings EnhancementType.PAPERPILE_METADATA
      (some p))
    (hdoc : fetchDocumentById db.documents p.document_id = some d) :
    (∀ row0, manifestGet m (lowerStr (baseName d.file_path)) = some row0 →
      lookupManifest (baseName d.file_path) m = some row0) ∧
    (manifestGet m (lowerStr (baseName d.file_path)) = none →
      hasParenDigits (lowerStr (baseName d.file_path)) = true →
      lookupManifest (baseName d.file_path) m =
        manifestGet m (stripStr (replaceDoubleSpace
          (subParenDigits (lowerStr (baseName d.file_path)))))) ∧
    (manifestGet m (lowerStr (baseName d.file_path)) = none →
      hasParenDigits (lowerStr (baseName d.file_path)) = false →
      lookupManifest (baseName d.file_path) m = none) ∧
    (lookupManifest (baseName d.file_path) m = none →
      (paperpileProcessOne m db (some p) now newEnhId).1 =
        some "discarded".data ∧
      (paperpileProcessOne m db (some p) now newEnhId).2.enhancements =
        db.enhancements ∧
      (paperpileProcessOne m db (some p) now
          newEnhId).2.pendings.find? (fun r => r.id == p.id) =
        some { p with status := DISCARDED, attempts := p.attempts + 1,
                      updated_at := now,
                      last_error := some "No manifest entry found".data }) ∧
    (∀ row, lookupManifest (baseName d.file_path) m = some row →
      (paperpileProcessOne m db (some p) now newEnhId).1 =
        some "completed".data ∧
      (paperpileProcessOne m db (some p) now newEnhId).2.enhancements =
        (createEnhancement db.enhancements d.id
          EnhancementType.PAPERPILE_METADATA (paperpileContent row)
          paperpileRobotId now newEnhId).2 ∧
      (db.enhancements.find? (fun e => e.document_id == d.id &&
          e.enhancement_type == EnhancementType.PAPERPILE_METADATA &&
          e.robot_id == paperpileRobotId) = none →
        (paperpileProcessOne m db (some p) now newEnhId).2.enhancements =
          db.enhancements ++
            [{ id := newEnhId, document_id := d.id,
               enhancement_type := EnhancementType.PAPERPILE_METADATA,
               content := sanitizeContent (paperpileContent row),
               robot_id := paperpileRobotId, created_at := now }]) ∧
      (paperpileProcessOne m db (some p) now
          newEnhId).2.pendings.find? (fun r => r.id == p.id) =
        some { p with status := COMPLETED, attempts := p.attempts + 1,
                      updated_at := now, last_error := none }) := by
  have hp : p ∈ db.pendings := hv.1
  have hd : fetchDocumentById db.documents
      (claimUpdate now p).document_id = some d := hdoc
  refine ⟨?_, ?_, ?_, ?_, ?_⟩
  · intro row0 hget
    simp [lookupManifest, hget]
  · intro hget hpar
    simp [lookupManifest, hget, hpar]
  · intro hget hpar
    simp [lookupManifest, hget, hpar]
  · intro hlk
    refine ⟨?_, ?_, ?_⟩
    · simp only [paperpileProcessOne, fetchNextPending, hd, hlk]
    · simp only [paperpileProcessOne, fetchNextPending, hd, hlk]
      rfl
    · simp only [paperpileProcessOne, fetchNextPending, hd, hlk,
        withPendings]
      rw [show (claimUpdate now p).id = p.id from rfl]
      rw [find?_after_set _ _ _ _ _ _
        (find?_claimed db.pendings p now hp hnd)]
      rfl
  · intro row hlk
    refine ⟨?_, ?_, ?_, ?_⟩
    · simp only [paperpileProcessOne, fetchNextPending, hd, hlk]
    · simp only [paperpileProcessOne, fetchNextPending, hd, hlk]
    · intro hnone
      simp only [paperpileProcessOne, fetchNextPending, hd, hlk]
      simp [createEnhancement, hnone]
    · simp only [paperpileProcessOne, fetchNextPending, hd, hlk]
      rw [show (claimUpdate now p).id = p.id from rfl]
      have hq2 := find?_after_set _ _ p.id IMPORTING
        none now (find?_claimed db.pendings p now hp hnd)
      rw [find?_after_set _ _ _ _ _ _ hq2]
      rfl

/-- Witness for C9 at a one-entry manifest hit with a duplicate-suffix
file name. -/
theorem paperpile_lookup_spec_witness :
    (paperpileProcessOne
        [("paper.pdf".data, { file_name := "paper.pdf".data,
                              year := some 2024 })]
        { documents := [{ id := 7,
                          file_path := "/inbox/Paper(1).pdf".data,
                          created_at := 0 }],
          enhancements := [],
          pendings := [{ id := 3, document_id := 7,
                         enhancement_type :=
                           EnhancementType.PAPERPILE_METADATA,
                         status := PENDING, created_at := 0,
                         updated_at := 0, attempts := 0,
                         last_error := none }] }
        (some { id := 3, document_id := 7,
                enhancement_type := EnhancementType.PAPERPILE_METADATA,
                status := PENDING, created_at := 0, updated_at := 0,
                attempts := 0, last_error := none }) 5 11).1 =
      some "completed".data := by
  have h := (paperpile_lookup_spec
    [("paper.pdf".data, { file_name := "paper.pdf".data,
                          year := some 2024 })]
    { documents := [{ id := 7, file_path := "/inbox/Paper(1).pdf".data,
                      created_at := 0 }],
      enhancements := [],
      pendings := [{ id := 3, document_id := 7,
                     enhancement_type :=
                       EnhancementType.PAPERPILE_METADATA,
                     status := PENDING, created_at := 0, updated_at := 0,
                     attempts := 0, last_error := none }] }
    { id := 3, document_id := 7,
      enhancement_type := EnhancementType.PAPERPILE_METADATA,
      status := PENDING, created_at := 0, updated_at := 0,
      attempts := 0, last_error := none }
    { id := 7, file_path := "/inbox/Paper(1).pdf".data, created_at := 0 }
    5 11 (by decide) (by decide) (by decide)).2.2.2.2
    { file_name := "paper.pdf".data, year := some 2024 } (by decide)
  exact h.1

/-! ### Cleaning: line-splitting lemmas -/

theorem splitLines_nil : splitLines [] = [[]] := rfl

theorem splitLines_nl (rest : Str) :
    splitLines ('\n' :: rest) = [] :: splitLines rest := rfl

theorem firstLine_nil : firstLine [] = [] := rfl

theorem firstLine_nl (rest : Str) : firstLine ('\n' :: rest) = [] := by
  simp [firstLine]

theorem firstLine_cons (c : Char) (rest : Str) (hc : c ≠ '\n') :
    firstLine (c :: rest) = c :: firstLine rest := by
  simp [firstLine, List.takeWhile_cons, hc]

theorem afterFirst_nil : afterFirst [] = [] := rfl

theorem afterFirst_nl (rest : Str) :
    afterFirst ('\n' :: rest) = '\n' :: rest := by
  simp [afterFirst, List.dropWhile_cons]

theorem afterFirst_cons (c : Char) (rest : Str) (hc : c ≠ '\n') :
    afterFirst (c :: rest) = afterFirst rest := by
  simp [afterFirst, List.dropWhile_cons, hc]

theorem splitLines_decomp (s : Str) :
    (afterFirst s = [] ∧ splitLines s = [firstLine s]) ∨
    (∃ r, afterFirst s = '\n' :: r ∧
      splitLines s = firstLine s :: splitLines r) := by
  induction s with
  | nil => exact Or.inl ⟨rfl, rfl⟩
  | cons c rest ih =>
      by_cases hc : c = '\n'
      · subst hc
        exact Or.inr ⟨rest, afterFirst_nl rest, by
          rw [splitLines_nl, firstLine_nl]⟩
      · rcases ih with ⟨h1, h2⟩ | ⟨r, h1, h2⟩
        · refine Or.inl ⟨by rw [afterFirst_cons c rest hc]; exact h1, ?_⟩
          rw [firstLine_cons c rest hc]
          simp only [splitLines, hc]
          split
          · rename_i heq
            rw [h2] at heq
            cases heq
            rfl
          · rename_i heq
            rw [h2] at heq
            cases heq
        · refine Or.inr ⟨r, by rw [afterFirst_cons c rest hc]; exact h1, ?_⟩
          rw [firstLine_cons c rest hc]
          simp only [splitLines, hc]
          split
          · rename_i heq
            rw [h2] at heq
            cases heq
            rfl
          · rename_i heq
            rw [h2] at heq
            cases heq

theorem firstLine_append_afterFirst (s : Str) :
    firstLine s ++ afterFirst s = s :=
  List.takeWhile_append_dropWhile (p := fun c => c != '\n') (l := s)

theorem afterFirst_length_lt (s r : Str) (h : afterFirst s = '\n' :: r) :
    r.length < s.length := by
  have h2 := firstLine_append_afterFirst s
  rw [h] at h2
  have h3 : s.length = (firstLine s).length + (r.length + 1) := by
    conv_lhs => rw [← h2]
    simp
  omega

theorem joinLines_cons (l : Str) (ls : List Str) (h : ls ≠ []) :
    joinLines (l :: ls) = l ++ '\n' :: joinLines ls := by
  cases ls with
  | nil => cases h rfl
  | cons a t => rfl

theorem joinLines_splitLines_bounded (n : Nat) :
    ∀ s : Str, s.length ≤ n → joinLines (splitLines s) = s := by
  induction n with
  | zero =>
      intro s h
      have hs : s = [] := by
        cases s with
        | nil => rfl
        | cons a t => simp at h
      subst hs
      rfl
  | succ n ih =>
      intro s h
      rcases splitLines_decomp s with ⟨h1, h2⟩ | ⟨r, h1, h2⟩
      · rw [h2]
        have := firstLine_append_afterFirst s
        rw [h1] at this
        simpa [joinLines] using this
      · have hne : splitLines r ≠ [] := by
          rcases splitLines_decomp r with ⟨_, h3⟩ | ⟨r2, _, h3⟩ <;>
            simp [h3]
        rw [h2, joinLines_cons _ _ hne]
        have hlen : r.length ≤ n := by
          have := afterFirst_length_lt s r h1
          omega
        rw [ih r hlen]
        have h4 := firstLine_append_afterFirst s
        rw [h1] at h4
        exact h4

theorem joinLines_splitLines (s : Str) :
    joinLines (splitLines s) = s :=
  joinLines_splitLines_bounded s.length s (le_refl _)

theorem splitLines_no_nl (l : Str) (h : ∀ c ∈ l, c ≠ '\n') :
    splitLines l = [l] := by
  induction l with
  | nil => rfl
  | cons c rest ih =>
      have hc : c ≠ '\n' := h c (List.mem_cons_self c rest)
      have h2 := ih (fun d hd => h d (List.mem_cons_of_mem c hd))
      simp only [splitLines, hc]
      split
      · rename_i heq
        rw [h2] at heq
        cases heq
        rfl
      · rename_i heq
        rw [h2] at heq
        cases heq

theorem splitLines_append_nl (l x : Str) (h : ∀ c ∈ l, c ≠ '\n') :
    splitLines (l ++ '\n' :: x) = l :: splitLines x := by
  induction l with
  | nil => rfl
  | cons c rest ih =>
      have hc : c ≠ '\n' := h c (List.mem_cons_self c rest)
      have h2 := ih (fun d hd => h d (List.mem_cons_of_mem c hd))
      simp only [List.cons_append, splitLines, hc]
      split
      · rename_i heq
        rw [h2] at heq
        cases heq
        rfl
      · rename_i heq
        rw [h2] at heq
        cases heq

theorem splitLines_joinLines (ls : List Str) (hne : ls ≠ [])
    (h : ∀ l ∈ ls, ∀ c ∈ l, c ≠ '\n') :
    splitLines (joinLines ls) = ls := by
  induction ls with
  | nil => cases hne rfl
  | cons l ls ih =>
      cases ls with
      | nil =>
          exact splitLines_no_nl l (h l (List.mem_cons_self l []))
      | cons a t =>
          rw [joinLines_cons l (a :: t) (List.cons_ne_nil a t)]
          rw [splitLines_append_nl l (joinLines (a :: t))
            (h l (List.mem_cons_self l (a :: t)))]
          rw [ih (List.cons_ne_nil a t)
            (fun l2 hl2 => h l2 (List.mem_cons_of_mem l hl2))]

/-! ### Cleaning: strip lemmas -/

theorem dropWhile_head_false {p : Char → Bool} {s : Str} {c : Char}
    {t : Str} (h : s.dropWhile p = c :: t) : p c = false := by
  induction s with
  | nil => cases h
  | cons a rest ih =>
      rw [List.dropWhile_cons] at h
      by_cases ha : p a
      · rw [if_pos ha] at h
        exact ih h
      · rw [if_neg ha] at h
        cases h
        simpa using ha

theorem lstrip_head_not_space (s : Str) (c : Char) (t : Str)
    (h : lstrip s = c :: t) : isSpaceChar c = false :=
  dropWhile_head_false h

theorem lstrip_no_leading (s : Str)
    (h : ∀ c t, s = c :: t → isSpaceChar c = false) : lstrip s = s := by
  cases s with
  | nil => rfl
  | cons c t =>
      unfold lstrip
      rw [List.dropWhile_cons, if_neg (by simp [h c t rfl])]

theorem lstrip_idem (s : Str) : lstrip (lstrip s) = lstrip s := by
  apply lstrip_no_leading
  intro c t h
  exact lstrip_head_not_space s c t h

theorem rstrip_isPrefix (s : Str) : ∃ t, s = rstrip s ++ t := by
  unfold rstrip
  obtain ⟨u, hu⟩ : ∃ u, s.reverse = u ++ lstrip s.reverse := by
    have := List.dropWhile_suffix (l := s.reverse) isSpaceChar
    obtain ⟨u, hu⟩ := this
    exact ⟨u, hu.symm⟩
  refine ⟨u.reverse, ?_⟩
  calc s = s.reverse.reverse := by rw [List.reverse_reverse]
  _ = (u ++ lstrip s.reverse).reverse := by rw [← hu]
  _ = (lstrip s.reverse).reverse ++ u.reverse := by
      rw [List.reverse_append]

theorem rstrip_idem (s : Str) : rstrip (rstrip s) = rstrip s := by
  unfold rstrip
  rw [List.reverse_reverse, lstrip_idem]

theorem lstrip_rstrip_comm (s : Str)
    (h : ∀ c t, s = c :: t → isSpaceChar c = false) :
    lstrip (rstrip s) = rstrip s := by
  apply lstrip_no_leading
  intro c t hct
  obtain ⟨u, hu⟩ := rstrip_isPrefix s
  rw [hct] at hu
  cases s with
  | nil =>
      rw [show rstrip ([] : Str) = [] from rfl] at hct
      cases hct
  | cons a r =>
      have ha := h a r rfl
      rw [List.cons_append] at hu
      injection hu with h1 _
      rw [← h1]
      exact ha

theorem stripStr_idem (s : Str) : stripStr (stripStr s) = stripStr s := by
  unfold stripStr
  rw [lstrip_rstrip_comm (lstrip s) (fun c t h =>
    lstrip_head_not_space s c t h)]
  rw [rstrip_idem]

theorem stripStr_no_boundary_space (s : Str)
    (hhead : ∀ c t, s = c :: t → isSpaceChar c = false)
    (hlast : ∀ c t, s.reverse = c :: t → isSpaceChar c = false) :
    stripStr s = s := by
  unfold stripStr
  rw [lstrip_no_leading s hhead]
  unfold rstrip
  rw [lstrip_no_leading s.reverse hlast, List.reverse_reverse]

/-! ### Cleaning: token lemmas -/

theorem wordsAux_tokens (s : Str) : ∀ (acc : Str),
    (∀ c ∈ acc, isSpaceChar c = false) →
    ∀ t ∈ wordsAux s acc, t ≠ [] ∧ ∀ c ∈ t, isSpaceChar c = false := by
  induction s with
  | nil =>
      intro acc hacc t ht
      simp only [wordsAux] at ht
      split at ht
      · cases ht
      · rename_i hne
        rcases List.mem_singleton.mp ht with rfl
        refine ⟨by simpa using hne, ?_⟩
        intro c hc
        exact hacc c (List.mem_reverse.mp hc)
  | cons a rest ih =>
      intro acc hacc t ht
      simp only [wordsAux] at ht
      by_cases hsp : isSpaceChar a
      · rw [if_pos hsp] at ht
        split at ht
        · exact ih [] (by simp) t ht
        · rename_i hne
          rcases List.mem_cons.mp ht with rfl | h2
          · refine ⟨by simpa using hne, ?_⟩
            intro c hc
            exact hacc c (List.mem_reverse.mp hc)
          · exact ih [] (by simp) t h2
      · rw [if_neg hsp] at ht
        refine ih (a :: acc) ?_ t ht
        intro c hc
        rcases List.mem_cons.mp hc with rfl | h2
        · simpa using hsp
        · exact hacc c h2

theorem wordsAux_cover (s : Str) : ∀ (acc : Str) (c : Char),
    ((c ∈ s ∧ isSpaceChar c = false) ∨ c ∈ acc) →
    ∃ t ∈ wordsAux s acc, c ∈ t := by
  induction s with
  | nil =>
      intro acc c hc
      rcases hc with ⟨hmem, _⟩ | hmem
      · cases hmem
      · have hne : acc.isEmpty = false := by
          cases acc with
          | nil => cases hmem
          | cons x y => rfl
        exact ⟨acc.reverse, by simp [wordsAux, hne],
          List.mem_reverse.mpr hmem⟩
  | cons a rest ih =>
      intro acc c hc
      simp only [wordsAux]
      by_cases hsp : isSpaceChar a
      · rw [if_pos hsp]
        rcases hc with ⟨hmem, hns⟩ | hmem
        · rcases List.mem_cons.mp hmem with rfl | h2
          · rw [hsp] at hns
            cases hns
          · obtain ⟨t, ht, hct⟩ := ih [] c (Or.inl ⟨h2, hns⟩)
            by_cases hacc : acc.isEmpty
            · rw [if_pos hacc]
              exact ⟨t, ht, hct⟩
            · rw [if_neg hacc]
              exact ⟨t, List.mem_cons_of_mem _ ht, hct⟩
        · have hacc : ¬(acc.isEmpty = true) := by
            cases acc with
            | nil => cases hmem
            | cons x y => simp
          rw [if_neg hacc]
          exact ⟨acc.reverse, List.mem_cons_self _ _,
            List.mem_reverse.mpr hmem⟩
      · rw [if_neg hsp]
        rcases hc with ⟨hmem, hns⟩ | hmem
        · rcases List.mem_cons.mp hmem with rfl | h2
          · exact ih (c :: acc) c (Or.inr (List.mem_cons_self _ _))
          · exact ih (a :: acc) c (Or.inl ⟨h2, hns⟩)
        · exact ih (a :: acc) c (Or.inr (List.mem_cons_of_mem _ hmem))

theorem words_ne_nil_of_nonspace (s : Str) (c : Char) (hmem : c ∈ s)
    (hns : isSpaceChar c = false) : words s ≠ [] := by
  obtain ⟨t, ht, _⟩ := wordsAux_cover s [] c (Or.inl ⟨hmem, hns⟩)
  intro h
  rw [show words s = wordsAux s [] from rfl] at h
  rw [h] at ht
  cases ht

theorem wordsAux_append_nonspace (t : Str) : ∀ (s acc : Str),
    (∀ c ∈ t, isSpaceChar c = false) →
    wordsAux (t ++ s) acc = wordsAux s (t.reverse ++ acc) := by
  induction t with
  | nil => intro s acc _; rfl
  | cons c t2 ih =>
      intro s acc h
      have hc : isSpaceChar c = false := h c (List.mem_cons_self c t2)
      simp only [List.cons_append, wordsAux, hc, Bool.false_eq_true,
        if_false]
      show wordsAux (t2 ++ s) (c :: acc) = wordsAux s ((c :: t2).reverse ++ acc)
      rw [ih s (c :: acc) (fun d hd => h d (List.mem_cons_of_mem c hd))]
      simp

theorem wordsAux_space_acc (w : Char) (s acc : Str)
    (hw : isSpaceChar w = true) (hacc : acc ≠ []) :
    wordsAux (w :: s) acc = acc.reverse :: wordsAux s [] := by
  have h2 : ¬(acc.isEmpty = true) := by
    cases acc with
    | nil => cases hacc rfl
    | cons x y => simp
  simp only [wordsAux, hw, if_pos, if_neg h2]

theorem words_no_space_eq (s : Str) (hne : s ≠ [])
    (h : ∀ c ∈ s, isSpaceChar c = false) : words s = [s] := by
  have h2 : wordsAux (s ++ []) [] = wordsAux [] (s.reverse ++ []) :=
    wordsAux_append_nonspace s [] [] h
  rw [List.append_nil] at h2
  rw [show words s = wordsAux s [] from rfl, h2]
  have h3 : ¬((s.reverse ++ []).isEmpty = true) := by
    cases s with
    | nil => cases hne rfl
    | cons x y => simp
  simp only [wordsAux, if_neg h3]
  simp

theorem words_joinSp (ts : List Str)
    (h : ∀ t ∈ ts, t ≠ [] ∧ ∀ c ∈ t, isSpaceChar c = false) :
    words (joinSp ts) = ts := by
  induction ts with
  | nil => rfl
  | cons t ts ih =>
      obtain ⟨hne, hns⟩ := h t (List.mem_cons_self t ts)
      cases ts with
      | nil =>
          show words (joinSp [t]) = [t]
          exact words_no_space_eq t hne hns
      | cons a t2 =>
          show words (t ++ ' ' :: joinSp (a :: t2)) = t :: a :: t2
          rw [show words (t ++ ' ' :: joinSp (a :: t2)) =
            wordsAux (t ++ ' ' :: joinSp (a :: t2)) [] from rfl]
          rw [wordsAux_append_nonspace t (' ' :: joinSp (a :: t2)) [] hns]
          rw [List.append_nil]
          rw [wordsAux_space_acc ' ' (joinSp (a :: t2)) t.reverse
            (by decide) (by simpa using hne)]
          rw [List.reverse_reverse]
          rw [show wordsAux (joinSp (a :: t2)) [] = words (joinSp (a :: t2))
            from rfl]
          rw [ih (fun t3 ht3 => h t3 (List.mem_cons_of_mem t ht3))]

theorem joinSp_mem (ts : List Str) (c : Char) (hc : c ∈ joinSp ts) :
    (∃ t ∈ ts, c ∈ t) ∨ c = ' ' := by
  induction ts with
  | nil => cases hc
  | cons t ts ih =>
      cases ts with
      | nil => exact Or.inl ⟨t, List.mem_cons_self t [], hc⟩
      | cons a t2 =>
          rw [show joinSp (t :: a :: t2) = t ++ ' ' :: joinSp (a :: t2)
            from rfl] at hc
          rcases List.mem_append.mp hc with h2 | h2
          · exact Or.inl ⟨t, List.mem_cons_self _ _, h2⟩
          · rcases List.mem_cons.mp h2 with rfl | h3
            · exact Or.inr rfl
            · rcases ih h3 with ⟨t3, ht3, hct3⟩ | h4
              · exact Or.inl ⟨t3, List.mem_cons_of_mem t ht3, hct3⟩
              · exact Or.inr h4

theorem joinSp_head (t : Str) (ts : List Str) :
    ∃ u, joinSp (t :: ts) = t ++ u := by
  cases ts with
  | nil => exact ⟨[], by simp [joinSp]⟩
  | cons a t2 => exact ⟨' ' :: joinSp (a :: t2), rfl⟩

theorem joinSp_ne_nil (t : Str) (ts : List Str) (hne : t ≠ []) :
    joinSp (t :: ts) ≠ [] := by
  obtain ⟨u, hu⟩ := joinSp_head t ts
  rw [hu]
  cases t with
  | nil => cases hne rfl
  | cons c t2 => simp

theorem joinSp_last_nonspace (ts : List Str)
    (h : ∀ t ∈ ts, t ≠ [] ∧ ∀ c ∈ t, isSpaceChar c = false) :
    ∀ c u, (joinSp ts).reverse = c :: u → isSpaceChar c = false := by
  induction ts with
  | nil => intro c u hcu; cases hcu
  | cons t ts ih =>
      intro c u hcu
      cases ts with
      | nil =>
          obtain ⟨_, hns⟩ := h t (List.mem_cons_self t [])
          have : c ∈ t.reverse := by
            rw [show joinSp [t] = t from rfl] at hcu
            rw [hcu]
            exact List.mem_cons_self c u
          exact hns c (List.mem_reverse.mp this)
      | cons a t2 =>
          rw [show joinSp (t :: a :: t2) = t ++ ' ' :: joinSp (a :: t2)
            from rfl, List.reverse_append] at hcu
          have hne2 : joinSp (a :: t2) ≠ [] :=
            joinSp_ne_nil a t2 (h a (List.mem_cons_of_mem t
              (List.mem_cons_self a t2))).1
          have hrne : (' ' :: joinSp (a :: t2)).reverse =
              (joinSp (a :: t2)).reverse ++ [' '] := by
            simp
          rw [hrne] at hcu
          cases hrev : (joinSp (a :: t2)).reverse with
          | nil =>
              refine absurd ?_ hne2
              have := congrArg List.reverse hrev
              simpa using this
          | cons c2 u2 =>
              rw [hrev] at hcu
              simp only [List.cons_append, List.append_assoc] at hcu
              injection hcu with h1 _
              subst h1
              exact ih (fun t3 ht3 => h t3 (List.mem_cons_of_mem t ht3))
                c2 u2 hrev

theorem stripStr_head_nonspace (l : Str) (c : Char) (t : Str)
    (h : stripStr l = c :: t) : isSpaceChar c = false := by
  obtain ⟨u, hu⟩ := rstrip_isPrefix (lstrip l)
  rw [show stripStr l = rstrip (lstrip l) from rfl] at h
  rw [h, List.cons_append] at hu
  exact lstrip_head_not_space l c (t ++ u) hu

theorem stripStr_last_nonspace (l : Str) (c : Char) (t : Str)
    (h : (stripStr l).reverse = c :: t) : isSpaceChar c = false := by
  have h2 : (stripStr l).reverse = lstrip (lstrip l).reverse := by
    show (rstrip (lstrip l)).reverse = _
    unfold rstrip
    rw [List.reverse_reverse]
  rw [h2] at h
  exact lstrip_head_not_space (lstrip l).reverse c t h

theorem words_ge2_of_interior_space (s : Str) (w : Char)
    (hw : w ∈ s) (hsp : isSpaceChar w = true)
    (hhead : ∀ c t, s = c :: t → isSpaceChar c = false)
    (hlast : ∀ c t, s.reverse = c :: t → isSpaceChar c = false) :
    2 ≤ (words s).length := by
  have hsplit : s.takeWhile (fun c => !isSpaceChar c) ++
      s.dropWhile (fun c => !isSpaceChar c) = s :=
    List.takeWhile_append_dropWhile (p := fun c => !isSpaceChar c) (l := s)
  have htw : ∀ c ∈ s.takeWhile (fun c => !isSpaceChar c),
      isSpaceChar c = false := by
    intro c hc
    have := List.mem_takeWhile_imp hc
    simpa using this
  cases hb : s.dropWhile (fun c => !isSpaceChar c) with
  | nil =>
      exfalso
      rw [hb, List.append_nil] at hsplit
      have := htw w (by rw [hsplit]; exact hw)
      rw [this] at hsp
      cases hsp
  | cons w2 r2 =>
      have hw2 : isSpaceChar w2 = true := by
        have := dropWhile_head_false hb
        simpa using this
      have ha : s.takeWhile (fun c => !isSpaceChar c) ≠ [] := by
        intro hnil
        rw [hnil, List.nil_append, hb] at hsplit
        have := hhead w2 r2 hsplit.symm
        rw [this] at hw2
        cases hw2
      have hr2 : ∃ d ∈ r2, isSpaceChar d = false := by
        cases hrev : r2.reverse with
        | nil =>
            exfalso
            have hr2nil : r2 = [] := by
              have := congrArg List.reverse hrev
              simpa using this
            rw [hr2nil] at hb
            have hs2 : s.reverse = w2 :: (s.takeWhile
                (fun c => !isSpaceChar c)).reverse := by
              conv_lhs => rw [← hsplit, hb]
              simp
            have := hlast w2 _ hs2
            rw [this] at hw2
            cases hw2
        | cons d u =>
            refine ⟨d, ?_, ?_⟩
            · have : d ∈ r2.reverse := by
                rw [hrev]
                exact List.mem_cons_self d u
              exact List.mem_reverse.mp this
            · have hs2 : s.reverse = d :: (u ++ w2 ::
                  (s.takeWhile (fun c => !isSpaceChar c)).reverse) := by
                conv_lhs => rw [← hsplit, hb]
                rw [List.reverse_append, List.reverse_cons, hrev]
                simp
              exact hlast d _ hs2
      obtain ⟨d, hd, hdns⟩ := hr2
      have hwords : words s = s.takeWhile (fun c => !isSpaceChar c) ::
          words r2 := by
        conv_lhs => rw [show words s = wordsAux s [] from rfl, ← hsplit, hb]
        rw [wordsAux_append_nonspace _ _ [] htw, List.append_nil]
        rw [wordsAux_space_acc w2 r2 _ hw2 (by simpa using ha)]
        rw [List.reverse_reverse]
        rfl
      rw [hwords]
      have : words r2 ≠ [] := words_ne_nil_of_nonspace r2 d hd hdns
      cases hwr : words r2 with
      | nil => cases this hwr
      | cons x y => simp

theorem cleanLine_nil : cleanLine [] = some [] := by decide

theorem cleanLine_idem (l l2 : Str) (h : cleanLine l = some l2) :
    cleanLine l2 = some l2 := by
  unfold cleanLine at h
  by_cases hd : pythonIsDigit (stripStr l) = true
  · rw [if_pos hd] at h
    cases h
  · rw [if_neg hd] at h
    by_cases he : (stripStr l).isEmpty
    · rw [if_pos he] at h
      injection h with h
      subst h
      exact cleanLine_nil
    · rw [if_neg he] at h
      injection h with h
      subst h
      have hsne : stripStr l ≠ [] := by
        intro h2
        rw [h2] at he
        exact he rfl
      have hshead : ∃ c t, stripStr l = c :: t := by
        cases hs : stripStr l with
        | nil => cases hsne hs
        | cons c t => exact ⟨c, t, rfl⟩
      obtain ⟨c0, t0, hs0⟩ := hshead
      have hc0 : isSpaceChar c0 = false := stripStr_head_nonspace l c0 t0 hs0
      have htokens : ∀ t ∈ words (stripStr l),
          t ≠ [] ∧ ∀ c ∈ t, isSpaceChar c = false :=
        wordsAux_tokens (stripStr l) [] (by simp)
      have hwne : words (stripStr l) ≠ [] :=
        words_ne_nil_of_nonspace (stripStr l) c0
          (by rw [hs0]; exact List.mem_cons_self c0 t0) hc0
      have hl2head : ∀ c t, joinSp (words (stripStr l)) = c :: t →
          isSpaceChar c = false := by
        intro c t hct
        cases hts : words (stripStr l) with
        | nil => cases hwne hts
        | cons t1 ts1 =>
            obtain ⟨hne1, hns1⟩ := htokens t1 (by
              rw [hts]
              exact List.mem_cons_self t1 ts1)
            obtain ⟨u, hu⟩ := joinSp_head t1 ts1
            rw [hts, hu] at hct
            cases ht1 : t1 with
            | nil => cases hne1 ht1
            | cons c1 t1r =>
                rw [ht1, List.cons_append] at hct
                injection hct with h1 _
                rw [← h1]
                exact hns1 c1 (by
                  rw [ht1]
                  exact List.mem_cons_self c1 t1r)
      have hl2last : ∀ c t, (joinSp (words (stripStr l))).reverse =
          c :: t → isSpaceChar c = false :=
        joinSp_last_nonspace (words (stripStr l)) htokens
      have hstrip2 : stripStr (joinSp (words (stripStr l))) =
          joinSp (words (stripStr l)) :=
        stripStr_no_boundary_space _ (fun c t h2 => hl2head c t h2)
          (fun c t h2 => hl2last c t h2)
      have hl2ne : joinSp (words (stripStr l)) ≠ [] := by
        cases hts : words (stripStr l) with
        | nil => cases hwne hts
        | cons t1 ts1 =>
            exact joinSp_ne_nil t1 ts1 (htokens t1 (by
              rw [hts]
              exact List.mem_cons_self t1 ts1)).1
      have hdig2 : pythonIsDigit (joinSp (words (stripStr l))) = false := by
        by_contra h2
        rw [Bool.not_eq_false] at h2
        have halldig : ∀ c ∈ joinSp (words (stripStr l)),
            isDigitChar c = true := by
          intro c hc
          have := (Bool.and_eq_true _ _).mp h2
          exact (List.all_eq_true.mp this.2) c hc
        cases hts : words (stripStr l) with
        | nil => cases hwne hts
        | cons t1 ts1 =>
            cases ts1 with
            | nil =>
                have hnospace : ∀ c ∈ stripStr l, isSpaceChar c = false := by
                  intro w hwmem
                  by_contra hws
                  rw [Bool.not_eq_false] at hws
                  have := words_ge2_of_interior_space (stripStr l) w hwmem
                    hws (fun c t h3 => stripStr_head_nonspace l c t h3)
                    (fun c t h3 => stripStr_last_nonspace l c t h3)
                  rw [hts] at this
                  simp at this
                have hws : words (stripStr l) = [stripStr l] :=
                  words_no_space_eq (stripStr l) hsne hnospace
                rw [hws] at hts
                injection hts with h3 _
                have hl2eq : joinSp (words (stripStr l)) = stripStr l := by
                  rw [hws, h3]
                  rfl
                rw [hl2eq] at h2
                rw [h2] at hd
                exact hd rfl
            | cons t2 ts2 =>
                have hsp : ' ' ∈ joinSp (words (stripStr l)) := by
                  rw [hts]
                  rw [show joinSp (t1 :: t2 :: ts2) =
                    t1 ++ ' ' :: joinSp (t2 :: ts2) from rfl]
                  exact List.mem_append.mpr (Or.inr
                    (List.mem_cons_self _ _))
                have := halldig ' ' hsp
                cases this
      unfold cleanLine
      rw [hstrip2, if_neg (by rw [hdig2]; simp),
        if_neg (by simpa using hl2ne)]
      congr 1
      rw [words_joinSp (words (stripStr l)) htokens]

/-! ### Cleaning: newline-collapsing lemmas -/

theorem emitNL_eq_replicate (k : Nat) :
    emitNL k = List.replicate (if 3 ≤ k then 2 else k) '\n' := by
  unfold emitNL
  split <;> rfl

theorem emitNL_le_two (k : Nat) :
    (if 3 ≤ k then 2 else k) ≤ 2 := by
  split <;> omega

theorem collapseNLAux_nil (k : Nat) : collapseNLAux k [] = emitNL k := rfl

theorem collapseNLAux_nl (k : Nat) (rest : Str) :
    collapseNLAux k ('\n' :: rest) = collapseNLAux (k + 1) rest := rfl

theorem collapseNLAux_cons (k : Nat) (c : Char) (rest : Str)
    (hc : c ≠ '\n') :
    collapseNLAux k (c :: rest) = emitNL k ++ c :: collapseNLAux 0 rest := by
  rw [collapseNLAux.eq_def]
  split
  · rename_i heq
    cases heq
  · rename_i heq
    injection heq with h1 _
    exact absurd h1 hc
  · rename_i hne heq
    injection heq with h1 h2
    rw [h1, h2]

theorem collapseNLAux_pos (s : Str) : ∀ (k : Nat), 1 ≤ k →
    ∃ t, collapseNLAux k s = '\n' :: t := by
  induction s with
  | nil =>
      intro k hk
      rw [collapseNLAux_nil, emitNL_eq_replicate]
      have h2 : (if 3 ≤ k then 2 else k) =
          ((if 3 ≤ k then 2 else k) - 1) + 1 := by
        split <;> omega
      exact ⟨_, by rw [h2, List.replicate_succ]⟩
  | cons c rest ih =>
      intro k hk
      by_cases hc : c = '\n'
      · subst hc
        rw [collapseNLAux_nl]
        exact ih (k + 1) (by omega)
      · rw [collapseNLAux_cons k c rest hc, emitNL_eq_replicate]
        have h2 : (if 3 ≤ k then 2 else k) =
            ((if 3 ≤ k then 2 else k) - 1) + 1 := by
          split <;> omega
        exact ⟨_, by rw [h2, List.replicate_succ]; rfl⟩

theorem firstLine_append_no_nl (a y : Str) (h : ∀ c ∈ a, c ≠ '\n') :
    firstLine (a ++ y) = a ++ firstLine y := by
  induction a with
  | nil => rfl
  | cons c a2 ih =>
      have hc : c ≠ '\n' := h c (List.mem_cons_self c a2)
      rw [List.cons_append, firstLine_cons _ _ hc,
        ih (fun d hd => h d (List.mem_cons_of_mem c hd)), List.cons_append]

theorem afterFirst_append_no_nl (a y : Str) (h : ∀ c ∈ a, c ≠ '\n') :
    afterFirst (a ++ y) = afterFirst y := by
  induction a with
  | nil => rfl
  | cons c a2 ih =>
      have hc : c ≠ '\n' := h c (List.mem_cons_self c a2)
      rw [List.cons_append, afterFirst_cons _ _ hc,
        ih (fun d hd => h d (List.mem_cons_of_mem c hd))]

theorem firstLine_no_nl (s : Str) : ∀ c ∈ firstLine s, c ≠ '\n' := by
  intro c hc
  have := List.mem_takeWhile_imp hc
  simpa using this

theorem collapseNLAux_zero_split (x : Str) :
    collapseNLAux 0 x = firstLine x ++ collapseNLAux 0 (afterFirst x) := by
  induction x with
  | nil => rfl
  | cons c rest ih =>
      by_cases hc : c = '\n'
      · subst hc
        rw [firstLine_nl, afterFirst_nl, List.nil_append]
      · rw [collapseNLAux_cons 0 c rest hc, firstLine_cons _ _ hc,
          afterFirst_cons _ _ hc, emitNL_eq_replicate]
        simp only [if_neg (by omega : ¬(3 ≤ 0)), List.replicate_zero,
          List.nil_append, List.cons_append]
        rw [ih]

theorem nonEmptyLines_nil : nonEmptyLines [] = [] := rfl

theorem nonEmptyLines_nl (x : Str) :
    nonEmptyLines ('\n' :: x) = nonEmptyLines x := by
  unfold nonEmptyLines
  rw [splitLines_nl]
  rfl

theorem nonEmptyLines_replicate_append (j : Nat) (x : Str) :
    nonEmptyLines (List.replicate j '\n' ++ x) = nonEmptyLines x := by
  induction j with
  | zero => rfl
  | succ j ih =>
      rw [List.replicate_succ, List.cons_append, nonEmptyLines_nl, ih]

theorem nonEmptyLines_cons_ne (c : Char) (x : Str) (hc : c ≠ '\n') :
    nonEmptyLines (c :: x) =
      (c :: firstLine x) :: nonEmptyLines (afterFirst x) := by
  unfold nonEmptyLines
  rcases splitLines_decomp (c :: x) with ⟨h1, h2⟩ | ⟨r, h1, h2⟩
  · rw [afterFirst_cons _ _ hc] at h1
    rw [h2, firstLine_cons _ _ hc, h1]
    rfl
  · rw [afterFirst_cons _ _ hc] at h1
    rw [h2, firstLine_cons _ _ hc, h1, splitLines_nl]
    rfl

theorem nonEmptyLines_collapseNLAux_bounded (n : Nat) :
    ∀ (s : Str), s.length ≤ n → ∀ (k : Nat),
    nonEmptyLines (collapseNLAux k s) = nonEmptyLines s := by
  induction n with
  | zero =>
      intro s h k
      have hs : s = [] := by
        cases s with
        | nil => rfl
        | cons a t => simp at h
      subst hs
      rw [collapseNLAux_nil, emitNL_eq_replicate,
        ← List.append_nil (List.replicate _ '\n'),
        nonEmptyLines_replicate_append]
  | succ n ih =>
      intro s h k
      cases s with
      | nil =>
          rw [collapseNLAux_nil, emitNL_eq_replicate,
            ← List.append_nil (List.replicate _ '\n'),
            nonEmptyLines_replicate_append]
      | cons c rest =>
          by_cases hc : c = '\n'
          · subst hc
            rw [collapseNLAux_nl, nonEmptyLines_nl]
            exact ih rest (by simpa using h) (k + 1)
          · rw [collapseNLAux_cons k c rest hc, emitNL_eq_replicate,
              nonEmptyLines_replicate_append]
            have hfl : firstLine (collapseNLAux 0 rest) = firstLine rest := by
              rw [collapseNLAux_zero_split rest]
              rw [firstLine_append_no_nl _ _ (firstLine_no_nl rest)]
              cases haf : afterFirst rest with
              | nil =>
                  rw [collapseNLAux_nil, emitNL_eq_replicate]
                  simp [firstLine_nil]
              | cons d r2 =>
                  have hd : d = '\n' := by
                    have := dropWhile_head_false haf
                    simpa using this
                  subst hd
                  rw [collapseNLAux_nl]
                  obtain ⟨t, ht⟩ := collapseNLAux_pos r2 1 (le_refl 1)
                  rw [ht, firstLine_nl, List.append_nil]
            have haf2 : nonEmptyLines (afterFirst (collapseNLAux 0 rest)) =
                nonEmptyLines (afterFirst rest) := by
              rw [collapseNLAux_zero_split rest]
              rw [afterFirst_append_no_nl _ _ (firstLine_no_nl rest)]
              cases haf : afterFirst rest with
              | nil =>
                  rw [collapseNLAux_nil, emitNL_eq_replicate]
                  simp [afterFirst_nil, nonEmptyLines_nil]
              | cons d r2 =>
                  have hd : d = '\n' := by
                    have := dropWhile_head_false haf
                    simpa using this
                  subst hd
                  rw [collapseNLAux_nl]
                  obtain ⟨t, ht⟩ := collapseNLAux_pos r2 1 (le_refl 1)
                  rw [ht, afterFirst_nl, ← ht]
                  have hr2 : r2.length ≤ n := by
                    have h2 := afterFirst_length_lt rest r2 haf
                    have h3 : rest.length ≤ n := by simpa using h
                    omega
                  rw [ih r2 hr2 1, nonEmptyLines_nl]
            rw [nonEmptyLines_cons_ne c _ hc, nonEmptyLines_cons_ne c rest hc,
              hfl, haf2]

theorem has3NL_nil : has3NL [] = false := rfl

theorem has3NL_triple (t : Str) :
    has3NL ('\n' :: '\n' :: '\n' :: t) = true := rfl

theorem has3NL_cons_ne (c : Char) (t : Str) (hc : c ≠ '\n') :
    has3NL (c :: t) = has3NL t := by
  rw [has3NL.eq_def]
  split
  · rename_i heq
    injection heq with h1 _
    exact absurd h1 hc
  · rename_i heq
    injection heq with _ h2
    rw [h2]
  · rename_i heq
    cases heq

theorem has3NL_nl_cons_ne (c : Char) (t : Str) (hc : c ≠ '\n') :
    has3NL ('\n' :: c :: t) = has3NL (c :: t) := by
  rw [has3NL.eq_def]
  split
  · rename_i heq
    injection heq with _ h2
    injection h2 with h3 _
    exact absurd h3 hc
  · rename_i heq
    injection heq with _ h2
    rw [h2]
  · rename_i heq
    cases heq

theorem has3NL_nl_nl_cons_ne (c : Char) (t : Str) (hc : c ≠ '\n') :
    has3NL ('\n' :: '\n' :: c :: t) = has3NL ('\n' :: c :: t) := by
  rw [has3NL.eq_def]
  split
  · rename_i heq
    injection heq with _ h2
    injection h2 with _ h3
    injection h3 with h4 _
    exact absurd h4 hc
  · rename_i heq
    injection heq with _ h2
    rw [h2]
  · rename_i heq
    cases heq

theorem has3NL_tail (a : Char) (t : Str) (h : has3NL t = true) :
    has3NL (a :: t) = true := by
  rw [has3NL.eq_def]
  split
  · rfl
  · rename_i heq
    injection heq with _ h2
    rw [← h2]
    exact h
  · rename_i heq
    cases heq

theorem has3NL_cons_elim (a : Char) (t : Str)
    (h : has3NL (a :: t) = false) : has3NL t = false := by
  by_contra h2
  rw [Bool.not_eq_false] at h2
  rw [has3NL_tail a t h2] at h
  cases h

theorem has3NL_append_of_right (x t : Str) (h : has3NL t = true) :
    has3NL (x ++ t) = true := by
  induction x with
  | nil => exact h
  | cons a x2 ih => exact has3NL_tail a (x2 ++ t) ih

theorem has3NL_append_of_left (x t : Str) (h : has3NL x = true) :
    has3NL (x ++ t) = true := by
  induction x with
  | nil => cases h
  | cons a x2 ih =>
      rw [has3NL.eq_def] at h
      split at h
      · rename_i heq
        injection heq with h1 h2
        subst h1
        rw [h2]
        rw [List.cons_append, List.cons_append, List.cons_append]
        exact has3NL_triple _
      · rename_i heq
        injection heq with h1 h2
        have hx2 : has3NL x2 = true := by
          rw [h2]
          exact h
        exact has3NL_tail a (x2 ++ t) (ih hx2)
      · rename_i heq
        cases heq

theorem has3NL_suffix_false (x t : Str) (h : has3NL (x ++ t) = false) :
    has3NL t = false := by
  by_contra h2
  rw [Bool.not_eq_false] at h2
  rw [has3NL_append_of_right x t h2] at h
  cases h

theorem has3NL_replicate_ge3 (k : Nat) (hk : 3 ≤ k) :
    has3NL (List.replicate k '\n') = true := by
  obtain ⟨j, rfl⟩ : ∃ j, k = j + 3 := ⟨k - 3, by omega⟩
  rw [show j + 3 = (j + 2) + 1 from rfl, List.replicate_succ,
    show j + 2 = (j + 1) + 1 from rfl, List.replicate_succ,
    List.replicate_succ]
  exact has3NL_triple _

theorem has3NL_replicate_le2 (j : Nat) (hj : j ≤ 2) :
    has3NL (List.replicate j '\n') = false := by
  match j, hj with
  | 0, _ => rfl
  | 1, _ => rfl
  | 2, _ => rfl

theorem has3NL_rep_cons (j : Nat) (c : Char) (t : Str) (hj : j ≤ 2)
    (hc : c ≠ '\n') :
    has3NL (List.replicate j '\n' ++ c :: t) = has3NL t := by
  match j, hj with
  | 0, _ => exact has3NL_cons_ne c t hc
  | 1, _ =>
      rw [show List.replicate 1 '\n' ++ c :: t = '\n' :: c :: t from rfl,
        has3NL_nl_cons_ne c t hc, has3NL_cons_ne c t hc]
  | 2, _ =>
      rw [show List.replicate 2 '\n' ++ c :: t = '\n' :: '\n' :: c :: t
        from rfl, has3NL_nl_nl_cons_ne c t hc, has3NL_nl_cons_ne c t hc,
        has3NL_cons_ne c t hc]

theorem has3NL_collapseNLAux (s : Str) : ∀ (k : Nat),
    has3NL (collapseNLAux k s) = false := by
  induction s with
  | nil =>
      intro k
      rw [collapseNLAux_nil, emitNL_eq_replicate]
      exact has3NL_replicate_le2 _ (emitNL_le_two k)
  | cons c rest ih =>
      intro k
      by_cases hc : c = '\n'
      · subst hc
        rw [collapseNLAux_nl]
        exact ih (k + 1)
      · rw [collapseNLAux_cons k c rest hc, emitNL_eq_replicate,
          has3NL_rep_cons _ c _ (emitNL_le_two k) hc]
        exact ih 0

theorem replicate_nl_shift (k : Nat) (rest : Str) :
    List.replicate k '\n' ++ '\n' :: rest =
      List.replicate (k + 1) '\n' ++ rest := by
  rw [List.replicate_succ']
  simp

theorem collapseNLAux_id_of_no3NL (s : Str) : ∀ (k : Nat),
    has3NL (List.replicate k '\n' ++ s) = false →
    collapseNLAux k s = List.replicate k '\n' ++ s := by
  induction s with
  | nil =>
      intro k h
      rw [List.append_nil] at h
      have hk : k ≤ 2 := by
        by_contra h2
        rw [has3NL_replicate_ge3 k (by omega)] at h
        cases h
      rw [collapseNLAux_nil, emitNL_eq_replicate, if_neg (by omega),
        List.append_nil]
  | cons c rest ih =>
      intro k h
      by_cases hc : c = '\n'
      · subst hc
        rw [collapseNLAux_nl, replicate_nl_shift]
        exact ih (k + 1) (by rw [← replicate_nl_shift]; exact h)
      · have hk : k ≤ 2 := by
          by_contra h2
          rw [has3NL_append_of_left _ _
            (has3NL_replicate_ge3 k (by omega))] at h
          cases h
        have hrest : has3NL rest = false := by
          have h2 := has3NL_suffix_false (List.replicate k '\n') _ h
          have h3 := has3NL_cons_elim c rest h2
          exact h3
        rw [collapseNLAux_cons k c rest hc, emitNL_eq_replicate,
          if_neg (by omega)]
        rw [ih 0 (by rw [List.replicate_zero, List.nil_append]; exact hrest)]
        rw [List.replicate_zero, List.nil_append]

theorem collapseNL_no3NL (s : Str) : has3NL (collapseNL s) = false :=
  has3NL_collapseNLAux s 0

theorem collapseNL_id_of_no3NL (s : Str) (h : has3NL s = false) :
    collapseNL s = s := by
  have := collapseNLAux_id_of_no3NL s 0 (by
    rw [List.replicate_zero, List.nil_append]
    exact h)
  rw [show collapseNL s = collapseNLAux 0 s from rfl, this,
    List.replicate_zero, List.nil_append]

/-! ### Cleaning: stripping a joined line list -/

theorem lstrip_joinLines (ms : List Str)
    (h : ∀ l ∈ ms, l = [] ∨ ∃ c t2, l = c :: t2 ∧ isSpaceChar c = false) :
    lstrip (joinLines ms) =
      joinLines (ms.dropWhile (fun l => l.isEmpty)) := by
  induction ms with
  | nil => rfl
  | cons l ms ih =>
      rcases h l (List.mem_cons_self l ms) with rfl | ⟨c, t2, rfl, hc⟩
      · cases ms with
        | nil => rfl
        | cons a t =>
            have hd : List.dropWhile (fun l : Str => l.isEmpty)
                ([] :: a :: t) =
                List.dropWhile (fun l : Str => l.isEmpty) (a :: t) := by
              rw [List.dropWhile_cons]
              simp
            rw [hd, ← ih (fun l2 hl2 => h l2 (List.mem_cons_of_mem [] hl2))]
            rw [joinLines_cons [] (a :: t) (List.cons_ne_nil a t),
              List.nil_append]
            unfold lstrip
            rw [List.dropWhile_cons, if_pos (by decide)]
      · have hjoin : joinLines ((c :: t2) :: ms) = (c :: t2) ++
            (if ms = [] then [] else '\n' :: joinLines ms) := by
          cases ms with
          | nil =>
              rw [if_pos rfl, List.append_nil]
              rfl
          | cons a t =>
              rw [if_neg (List.cons_ne_nil a t),
                joinLines_cons _ _ (List.cons_ne_nil a t)]
        have hdw : List.dropWhile (fun l : Str => l.isEmpty)
            ((c :: t2) :: ms) = (c :: t2) :: ms := by
          rw [List.dropWhile_cons, if_neg (by simp)]
        rw [hdw, hjoin]
        unfold lstrip
        rw [List.cons_append, List.dropWhile_cons,
          if_neg (by simp [hc])]

theorem joinLines_append_last (xs : List Str) (y : Str) (h : xs ≠ []) :
    joinLines (xs ++ [y]) = joinLines xs ++ '\n' :: y := by
  induction xs with
  | nil => cases h rfl
  | cons x xs ih =>
      cases xs with
      | nil => rfl
      | cons a t =>
          rw [List.cons_append,
            joinLines_cons x ((a :: t) ++ [y]) (by simp),
            joinLines_cons x (a :: t) (List.cons_ne_nil a t),
            ih (List.cons_ne_nil a t)]
          simp

theorem joinLines_reverse (ms : List Str) :
    (joinLines ms).reverse = joinLines ((ms.map List.reverse).reverse) := by
  induction ms with
  | nil => rfl
  | cons l ms ih =>
      cases ms with
      | nil => rfl
      | cons a t =>
          rw [joinLines_cons l (a :: t) (List.cons_ne_nil a t)]
          rw [List.reverse_append, List.reverse_cons]
          rw [List.map_cons, List.reverse_cons]
          rw [joinLines_append_last _ _ (by simp)]
          rw [← ih]
          simp

theorem map_reverse_reverse (ms : List Str) :
    (ms.map List.reverse).map List.reverse = ms := by
  induction ms with
  | nil => rfl
  | cons l ms ih => simp [ih]

theorem dropWhile_isEmpty_map_reverse (ms : List Str) :
    (ms.map List.reverse).dropWhile (fun l => l.isEmpty) =
      (ms.dropWhile (fun l => l.isEmpty)).map List.reverse := by
  induction ms with
  | nil => rfl
  | cons l ms ih =>
      rw [List.map_cons, List.dropWhile_cons, List.dropWhile_cons]
      have : l.reverse.isEmpty = l.isEmpty := by
        cases l with
        | nil => rfl
        | cons c t => simp
      rw [this]
      by_cases he : l.isEmpty
      · rw [if_pos he, if_pos he, ih]
      · rw [if_neg he, if_neg he, List.map_cons]

theorem rstrip_joinLines (ms : List Str)
    (h : ∀ l ∈ ms, l = [] ∨ ∃ c t2, l.reverse = c :: t2 ∧
      isSpaceChar c = false) :
    rstrip (joinLines ms) =
      joinLines ((ms.reverse.dropWhile (fun l => l.isEmpty)).reverse) := by
  unfold rstrip
  rw [joinLines_reverse ms]
  rw [lstrip_joinLines ((ms.map List.reverse).reverse) (by
    intro l2 hl2
    have hl3 : l2 ∈ ms.map List.reverse := List.mem_reverse.mp hl2
    obtain ⟨l0, hl0, rfl⟩ := List.mem_map.mp hl3
    rcases h l0 hl0 with rfl | ⟨c, t2, hrev, hc⟩
    · exact Or.inl rfl
    · exact Or.inr ⟨c, t2, hrev, hc⟩)]
  rw [show (ms.map List.reverse).reverse = ms.reverse.map List.reverse from
    (List.map_reverse List.reverse ms).symm]
  rw [dropWhile_isEmpty_map_reverse ms.reverse]
  rw [joinLines_reverse ((ms.reverse.dropWhile (fun l => l.isEmpty)).map
    List.reverse)]
  rw [map_reverse_reverse]

/-! ### Cleaning: properties of fixed lines -/

theorem cleanLine_fixed_props (l : Str) (h : cleanLine l = some l) :
    stripStr l = l ∧ pythonIsDigit l = false ∧ (∀ c ∈ l, c ≠ '\n') ∧
    (l = [] ∨ ∃ c t2, l = c :: t2 ∧ isSpaceChar c = false) ∧
    (l = [] ∨ ∃ c t2, l.reverse = c :: t2 ∧ isSpaceChar c = false) := by
  unfold cleanLine at h
  by_cases hd : pythonIsDigit (stripStr l) = true
  · rw [if_pos hd] at h
    cases h
  · rw [if_neg hd] at h
    by_cases he : (stripStr l).isEmpty
    · rw [if_pos he] at h
      injection h with h
      rw [← h]
      refine ⟨rfl, rfl, by simp, Or.inl rfl, Or.inl rfl⟩
    · rw [if_neg he] at h
      injection h with h
      have hsne : stripStr l ≠ [] := by
        intro h2
        rw [h2] at he
        exact he rfl
      have htokens : ∀ t ∈ words (stripStr l),
          t ≠ [] ∧ ∀ c ∈ t, isSpaceChar c = false :=
        wordsAux_tokens (stripStr l) [] (by simp)
      obtain ⟨c0, t0, hs0⟩ : ∃ c t2, stripStr l = c :: t2 := by
        cases hs : stripStr l with
        | nil => cases hsne hs
        | cons c t => exact ⟨c, t, rfl⟩
      have hc0 : isSpaceChar c0 = false := stripStr_head_nonspace l c0 t0 hs0
      have hwne : words (stripStr l) ≠ [] :=
        words_ne_nil_of_nonspace (stripStr l) c0
          (by rw [hs0]; exact List.mem_cons_self c0 t0) hc0
      have hhead : ∀ c t, joinSp (words (stripStr l)) = c :: t →
          isSpaceChar c = false := by
        intro c t hct
        cases hts : words (stripStr l) with
        | nil => cases hwne hts
        | cons t1 ts1 =>
            obtain ⟨hne1, hns1⟩ := htokens t1 (by
              rw [hts]
              exact List.mem_cons_self t1 ts1)
            obtain ⟨u, hu⟩ := joinSp_head t1 ts1
            rw [hts, hu] at hct
            cases ht1 : t1 with
            | nil => cases hne1 ht1
            | cons c1 t1r =>
                rw [ht1, List.cons_append] at hct
                injection hct with h1 _
                rw [← h1]
                exact hns1 c1 (by
                  rw [ht1]
                  exact List.mem_cons_self c1 t1r)
      have hlast : ∀ c t, (joinSp (words (stripStr l))).reverse =
          c :: t → isSpaceChar c = false :=
        joinSp_last_nonspace (words (stripStr l)) htokens
      have hl2ne : joinSp (words (stripStr l)) ≠ [] := by
        cases hts : words (stripStr l) with
        | nil => cases hwne hts
        | cons t1 ts1 =>
            exact joinSp_ne_nil t1 ts1 (htokens t1 (by
              rw [hts]
              exact List.mem_cons_self t1 ts1)).1
      have hdig2 : pythonIsDigit (joinSp (words (stripStr l))) = false := by
        by_contra h2
        rw [Bool.not_eq_false] at h2
        have halldig : ∀ c ∈ joinSp (words (stripStr l)),
            isDigitChar c = true := by
          intro c hc
          have h3 := (Bool.and_eq_true _ _).mp h2
          exact (List.all_eq_true.mp h3.2) c hc
        cases hts : words (stripStr l) with
        | nil => cases hwne hts
        | cons t1 ts1 =>
            cases ts1 with
            | nil =>
                have hnospace : ∀ c ∈ stripStr l,
                    isSpaceChar c = false := by
                  intro w hwmem
                  by_contra hws
                  rw [Bool.not_eq_false] at hws
                  have h4 := words_ge2_of_interior_space (stripStr l) w
                    hwmem hws
                    (fun c t h3 => stripStr_head_nonspace l c t h3)
                    (fun c t h3 => stripStr_last_nonspace l c t h3)
                  rw [hts] at h4
                  simp at h4
                have hws : words (stripStr l) = [stripStr l] :=
                  words_no_space_eq (stripStr l) hsne hnospace
                rw [hws] at hts
                injection hts with h3 _
                have hl2eq : joinSp (words (stripStr l)) = stripStr l := by
                  rw [hws, h3]
                  rfl
                rw [hl2eq] at h2
                rw [h2] at hd
                exact hd rfl
            | cons t2 ts2 =>
                have hsp : ' ' ∈ joinSp (words (stripStr l)) := by
                  rw [hts, show joinSp (t1 :: t2 :: ts2) =
                    t1 ++ ' ' :: joinSp (t2 :: ts2) from rfl]
                  exact List.mem_append.mpr (Or.inr
                    (List.mem_cons_self _ _))
                have := halldig ' ' hsp
                cases this
      have hnonl : ∀ c ∈ joinSp (words (stripStr l)), c ≠ '\n' := by
        intro c hc
        rcases joinSp_mem _ c hc with ⟨t, ht, hct⟩ | rfl
        · have := (htokens t ht).2 c hct
          intro h2
          rw [h2] at this
          cases this
        · decide
      rw [← h]
      refine ⟨stripStr_no_boundary_space _ hhead hlast, hdig2, hnonl,
        ?_, ?_⟩
      · cases hl : joinSp (words (stripStr l)) with
        | nil => exact Or.inl rfl
        | cons c t => exact Or.inr ⟨c, t, rfl, hhead c t hl⟩
      · cases hl : (joinSp (words (stripStr l))).reverse with
        | nil => exact Or.inl (by
            have := congrArg List.reverse hl
            simpa using this)
        | cons c t => exact Or.inr ⟨c, t, rfl, hlast c t hl⟩

/-! ### Cleaning: character provenance lemmas -/

theorem mem_lstrip (s : Str) (c : Char) (h : c ∈ lstrip s) : c ∈ s := by
  obtain ⟨pre, hpre⟩ := List.dropWhile_suffix (l := s) isSpaceChar
  rw [← hpre]
  exact List.mem_append.mpr (Or.inr h)

theorem mem_rstrip (s : Str) (c : Char) (h : c ∈ rstrip s) : c ∈ s := by
  obtain ⟨t, ht⟩ := rstrip_isPrefix s
  rw [ht]
  exact List.mem_append.mpr (Or.inl h)

theorem mem_stripStr (s : Str) (c : Char) (h : c ∈ stripStr s) : c ∈ s :=
  mem_lstrip s c (mem_rstrip (lstrip s) c h)

theorem mem_joinLines_of (ls : List Str) (l : Str) (c : Char)
    (hl : l ∈ ls) (hc : c ∈ l) : c ∈ joinLines ls := by
  induction ls with
  | nil => cases hl
  | cons a t ih =>
      cases t with
      | nil =>
          rcases List.mem_cons.mp hl with rfl | h2
          · exact hc
          · cases h2
      | cons b u =>
          rw [joinLines_cons a (b :: u) (List.cons_ne_nil b u)]
          rcases List.mem_cons.mp hl with rfl | h2
          · exact List.mem_append.mpr (Or.inl hc)
          · exact List.mem_append.mpr (Or.inr
              (List.mem_cons_of_mem '\n' (ih h2)))

theorem mem_splitLines (s : Str) (l : Str) (c : Char)
    (hl : l ∈ splitLines s) (hc : c ∈ l) : c ∈ s := by
  rw [← joinLines_splitLines s]
  exact mem_joinLines_of (splitLines s) l c hl hc

theorem mem_joinLines (ls : List Str) (c : Char) (h : c ∈ joinLines ls) :
    (∃ l ∈ ls, c ∈ l) ∨ c = '\n' := by
  induction ls with
  | nil => cases h
  | cons a t ih =>
      cases t with
      | nil => exact Or.inl ⟨a, List.mem_cons_self a [], h⟩
      | cons b u =>
          rw [joinLines_cons a (b :: u) (List.cons_ne_nil b u)] at h
          rcases List.mem_append.mp h with h2 | h2
          · exact Or.inl ⟨a, List.mem_cons_self _ _, h2⟩
          · rcases List.mem_cons.mp h2 with rfl | h3
            · exact Or.inr rfl
            · rcases ih h3 with ⟨l, hl, hcl⟩ | h4
              · exact Or.inl ⟨l, List.mem_cons_of_mem a hl, hcl⟩
              · exact Or.inr h4

theorem mem_wordsAux (s : Str) : ∀ (acc t : Str), t ∈ wordsAux s acc →
    ∀ c ∈ t, c ∈ s ∨ c ∈ acc := by
  induction s with
  | nil =>
      intro acc t ht c hc
      simp only [wordsAux] at ht
      split at ht
      · cases ht
      · rcases List.mem_singleton.mp ht with rfl
        exact Or.inr (List.mem_reverse.mp hc)
  | cons a rest ih =>
      intro acc t ht c hc
      simp only [wordsAux] at ht
      by_cases hsp : isSpaceChar a
      · rw [if_pos hsp] at ht
        split at ht
        · rcases ih [] t ht c hc with h2 | h2
          · exact Or.inl (List.mem_cons_of_mem a h2)
          · cases h2
        · rcases List.mem_cons.mp ht with rfl | h2
          · exact Or.inr (List.mem_reverse.mp hc)
          · rcases ih [] t h2 c hc with h3 | h3
            · exact Or.inl (List.mem_cons_of_mem a h3)
            · cases h3
      · rw [if_neg hsp] at ht
        rcases ih (a :: acc) t ht c hc with h2 | h2
        · exact Or.inl (List.mem_cons_of_mem a h2)
        · rcases List.mem_cons.mp h2 with rfl | h3
          · exact Or.inl (List.mem_cons_self c rest)
          · exact Or.inr h3

theorem mem_cleanLine (l0 l : Str) (h : cleanLine l0 = some l) (c : Char)
    (hc : c ∈ l) : c ∈ l0 ∨ c = ' ' := by
  unfold cleanLine at h
  by_cases hd : pythonIsDigit (stripStr l0) = true
  · rw [if_pos hd] at h
    cases h
  · rw [if_neg hd] at h
    by_cases he : (stripStr l0).isEmpty
    · rw [if_pos he] at h
      injection h with h
      rw [← h] at hc
      cases hc
    · rw [if_neg he] at h
      injection h with h
      rw [← h] at hc
      rcases joinSp_mem _ c hc with ⟨t, ht, hct⟩ | rfl
      · rcases mem_wordsAux (stripStr l0) [] t ht c hct with h2 | h2
        · exact Or.inl (mem_stripStr l0 c h2)
        · cases h2
      · exact Or.inr rfl

theorem mem_collapseNLAux (s : Str) : ∀ (k : Nat) (c : Char),
    c ∈ collapseNLAux k s → c ∈ s ∨ c = '\n' := by
  induction s with
  | nil =>
      intro k c hc
      rw [collapseNLAux_nil, emitNL_eq_replicate] at hc
      exact Or.inr (List.eq_of_mem_replicate hc)
  | cons a rest ih =>
      intro k c hc
      by_cases ha : a = '\n'
      · subst ha
        rw [collapseNLAux_nl] at hc
        rcases ih (k + 1) c hc with h2 | h2
        · exact Or.inl (List.mem_cons_of_mem '\n' h2)
        · exact Or.inr h2
      · rw [collapseNLAux_cons k a rest ha, emitNL_eq_replicate] at hc
        rcases List.mem_append.mp hc with h2 | h2
        · exact Or.inr (List.eq_of_mem_replicate h2)
        · rcases List.mem_cons.mp h2 with rfl | h3
          · exact Or.inl (List.mem_cons_self c rest)
          · rcases ih 0 c h3 with h4 | h4
            · exact Or.inl (List.mem_cons_of_mem a h4)
            · exact Or.inr h4

theorem mem_cleanText (x : Str) (c : Char) (hc : c ∈ cleanText x) :
    c ∈ normalizeEOL (normalizeLigatures x) ∨ c = ' ' ∨ c = '\n' := by
  unfold cleanText at hc
  have h1 := mem_stripStr _ c hc
  rcases mem_collapseNLAux _ 0 c h1 with h2 | h2
  · rcases mem_joinLines _ c h2 with ⟨l, hl, hcl⟩ | h3
    · obtain ⟨l0, hl0, hcl0⟩ := List.mem_filterMap.mp hl
      rcases mem_cleanLine l0 l hcl0 c hcl with h4 | h4
      · exact Or.inl (mem_splitLines _ l0 c hl0 h4)
      · exact Or.inr (Or.inl h4)
    · exact Or.inr (Or.inr h3)
  · exact Or.inr (Or.inr h2)

/-! ### Cleaning: line-ending and ligature stage lemmas -/

theorem replaceCRLF_cons_ne (c : Char) (rest : Str) (hc : c ≠ '\r') :
    replaceCRLF (c :: rest) = c :: replaceCRLF rest := by
  rw [replaceCRLF.eq_def]
  split
  · rename_i heq
    injection heq with h1 _
    exact absurd h1 hc
  · rename_i heq
    injection heq with h1 h2
    rw [h1, h2]
  · rename_i heq
    cases heq

theorem replaceCRLF_cr (rest : Str) (h : ∀ r2, rest ≠ '\n' :: r2) :
    replaceCRLF ('\r' :: rest) = '\r' :: replaceCRLF rest := by
  rw [replaceCRLF.eq_def]
  split
  · rename_i heq
    injection heq with _ h2
    exact absurd h2 (h _)
  · rename_i heq
    injection heq with h1 h2
    rw [h1, h2]
  · rename_i heq
    cases heq

theorem mem_replaceCRLF_bounded (n : Nat) : ∀ s : Str, s.length ≤ n →
    ∀ c : Char, c ∈ replaceCRLF s → c ∈ s ∨ c = '\n' := by
  induction n with
  | zero =>
      intro s hs c h
      rw [List.length_eq_zero.mp (Nat.le_zero.mp hs)] at h
      cases h
  | succ n ih =>
      intro s hs c h
      match s, hs with
      | [], _ => cases h
      | a :: t, hs =>
          by_cases ha : a = '\r'
          · subst ha
            match t with
            | [] =>
                rw [replaceCRLF_cr [] (fun r2 h2 => by cases h2)] at h
                rcases List.mem_cons.mp h with rfl | h2
                · exact Or.inl (List.mem_cons_self _ _)
                · cases h2
            | b :: u =>
                by_cases hb : b = '\n'
                · subst hb
                  rw [show replaceCRLF ('\r' :: '\n' :: u) =
                    '\n' :: replaceCRLF u from rfl] at h
                  rcases List.mem_cons.mp h with rfl | h2
                  · exact Or.inr rfl
                  · have hu : u.length ≤ n := by
                      have := Nat.le_of_succ_le_succ hs
                      exact Nat.le_of_succ_le this
                    rcases ih u hu c h2 with h3 | h3
                    · exact Or.inl (List.mem_cons_of_mem _
                        (List.mem_cons_of_mem _ h3))
                    · exact Or.inr h3
                · rw [replaceCRLF_cr (b :: u)
                    (fun r2 h2 => hb (List.cons_eq_cons.mp h2).1)] at h
                  rcases List.mem_cons.mp h with rfl | h2
                  · exact Or.inl (List.mem_cons_self _ _)
                  · rcases ih (b :: u) (Nat.le_of_succ_le_succ hs) c h2 with
                      h3 | h3
                    · exact Or.inl (List.mem_cons_of_mem _ h3)
                    · exact Or.inr h3
          · rw [replaceCRLF_cons_ne a t ha] at h
            rcases List.mem_cons.mp h with rfl | h2
            · exact Or.inl (List.mem_cons_self _ _)
            · rcases ih t (Nat.le_of_succ_le_succ hs) c h2 with h3 | h3
              · exact Or.inl (List.mem_cons_of_mem _ h3)
              · exact Or.inr h3

theorem mem_replaceCRLF (s : Str) (c : Char) (h : c ∈ replaceCRLF s) :
    c ∈ s ∨ c = '\n' :=
  mem_replaceCRLF_bounded s.length s (Nat.le_refl _) c h

theorem replaceCR_noCR (s : Str) : '\r' ∉ replaceCR s := by
  intro h
  obtain ⟨d, _, hd⟩ := List.mem_map.mp h
  by_cases hdr : d = '\r'
  · rw [if_pos hdr] at hd
    cases hd
  · rw [if_neg hdr] at hd
    exact hdr hd

theorem normalizeEOL_noCR (s : Str) : '\r' ∉ normalizeEOL s :=
  replaceCR_noCR (replaceCRLF s)

theorem replaceCRLF_id_of_noCR (s : Str) (h : '\r' ∉ s) :
    replaceCRLF s = s := by
  induction s with
  | nil => rfl
  | cons c rest ih =>
      have hc : c ≠ '\r' := by
        intro h2
        exact h (h2 ▸ List.mem_cons_self c rest)
      rw [replaceCRLF_cons_ne c rest hc,
        ih (fun h2 => h (List.mem_cons_of_mem c h2))]

theorem replaceCR_id_of_noCR (s : Str) (h : '\r' ∉ s) :
    replaceCR s = s := by
  induction s with
  | nil => rfl
  | cons c rest ih =>
      show (if c = '\r' then '\n' else c) :: replaceCR rest = c :: rest
      rw [if_neg (fun h2 : c = '\r' =>
          h (h2 ▸ List.mem_cons_self c rest)),
        ih (fun h2 => h (List.mem_cons_of_mem c h2))]

theorem normalizeEOL_id_of_noCR (s : Str) (h : '\r' ∉ s) :
    normalizeEOL s = s := by
  unfold normalizeEOL
  rw [replaceCRLF_id_of_noCR s h, replaceCR_id_of_noCR s h]

theorem nfkcChar_mem (c d : Char) (hd : d ∈ nfkcChar c) :
    d ∈ ['f', 'i', 'l', 's', 't'] ∨
      (d = c ∧ ∀ p ∈ ligatureMap, c ≠ p.1) := by
  rw [nfkcChar.eq_def] at hd
  split at hd
  · left
    simp only [List.mem_cons, List.not_mem_nil, or_false] at hd
    rcases hd with rfl | rfl <;> decide
  · left
    simp only [List.mem_cons, List.not_mem_nil, or_false] at hd
    rcases hd with rfl | rfl <;> decide
  · left
    simp only [List.mem_cons, List.not_mem_nil, or_false] at hd
    rcases hd with rfl | rfl <;> decide
  · left
    simp only [List.mem_cons, List.not_mem_nil, or_false] at hd
    rcases hd with rfl | rfl | rfl <;> decide
  · left
    simp only [List.mem_cons, List.not_mem_nil, or_false] at hd
    rcases hd with rfl | rfl | rfl <;> decide
  · left
    simp only [List.mem_cons, List.not_mem_nil, or_false] at hd
    rcases hd with rfl | rfl <;> decide
  · left
    simp only [List.mem_cons, List.not_mem_nil, or_false] at hd
    rcases hd with rfl | rfl <;> decide
  · rename_i h0 h1 h2 h3 h4 h5 h6
    rcases List.mem_singleton.mp hd with rfl
    refine Or.inr ⟨rfl, ?_⟩
    intro p hp
    fin_cases hp <;> simp_all

theorem nfkcChar_eq_self (c : Char)
    (h : ∀ p ∈ ligatureMap, c ≠ p.1) : nfkcChar c = [c] := by
  have h0 : c ≠ 'ﬀ' := h ('ﬀ', ['f', 'f']) (by decide)
  have h1 : c ≠ 'ﬁ' := h ('ﬁ', ['f', 'i']) (by decide)
  have h2 : c ≠ 'ﬂ' := h ('ﬂ', ['f', 'l']) (by decide)
  have h3 : c ≠ 'ﬃ' := h ('ﬃ', ['f', 'f', 'i']) (by decide)
  have h4 : c ≠ 'ﬄ' := h ('ﬄ', ['f', 'f', 'l']) (by decide)
  have h5 : c ≠ 'ﬅ' := h ('ﬅ', ['s', 't']) (by decide)
  have h6 : c ≠ 'ﬆ' := h ('ﬆ', ['s', 't']) (by decide)
  clear h
  rw [nfkcChar.eq_def]
  split <;> simp_all

theorem mem_replaceChar (lig : Char) (exp s : Str) (d : Char)
    (hd : d ∈ replaceChar lig exp s) : d ∈ exp ∨ d ∈ s := by
  obtain ⟨c, hc, hdc⟩ := List.mem_flatMap.mp hd
  by_cases hcl : c = lig
  · rw [if_pos hcl] at hdc
    exact Or.inl hdc
  · rw [if_neg hcl] at hdc
    rcases List.mem_singleton.mp hdc with rfl
    exact Or.inr hc

theorem replaceChar_id (lig : Char) (exp s : Str) (h : lig ∉ s) :
    replaceChar lig exp s = s := by
  induction s with
  | nil => rfl
  | cons c rest ih =>
      show (if c = lig then exp else [c]) ++ replaceChar lig exp rest =
        c :: rest
      rw [if_neg (fun h2 : c = lig =>
          h (h2 ▸ List.mem_cons_self c rest)),
        ih (fun h2 => h (List.mem_cons_of_mem c h2))]
      rfl

theorem nfkc_id (s : Str) (h : ∀ c ∈ s, ∀ p ∈ ligatureMap, c ≠ p.1) :
    nfkc s = s := by
  induction s with
  | nil => rfl
  | cons c rest ih =>
      show nfkcChar c ++ nfkc rest = c :: rest
      rw [nfkcChar_eq_self c (h c (List.mem_cons_self c rest)),
        ih (fun d hd => h d (List.mem_cons_of_mem c hd))]
      rfl

theorem noLig_letters : ∀ (d : Char), d ∈ ['f', 'i', 'l', 's', 't'] →
    ∀ p ∈ ligatureMap, d ≠ p.1 := by
  decide

theorem noLig_nfkc (s : Str) (d : Char) (hd : d ∈ nfkc s) :
    ∀ p ∈ ligatureMap, d ≠ p.1 := by
  obtain ⟨c, _, hdc⟩ := List.mem_flatMap.mp hd
  rcases nfkcChar_mem c d hdc with h2 | ⟨rfl, h2⟩
  · exact noLig_letters d h2
  · exact h2

theorem noLig_replaceChar (lig : Char) (exp s : Str)
    (hexp : ∀ d ∈ exp, ∀ p ∈ ligatureMap, d ≠ p.1)
    (hs : ∀ d ∈ s, ∀ p ∈ ligatureMap, d ≠ p.1) :
    ∀ d ∈ replaceChar lig exp s, ∀ p ∈ ligatureMap, d ≠ p.1 := by
  intro d hd
  rcases mem_replaceChar lig exp s d hd with h2 | h2
  · exact hexp d h2
  · exact hs d h2

theorem normalizeLigatures_unfold (s : Str) :
    normalizeLigatures s =
      replaceChar 'ﬆ' ['s', 't'] (replaceChar 'ﬅ' ['s', 't']
        (replaceChar 'ﬄ' ['f', 'f', 'l'] (replaceChar 'ﬃ' ['f', 'f', 'i']
          (replaceChar 'ﬂ' ['f', 'l'] (replaceChar 'ﬁ' ['f', 'i']
            (replaceChar 'ﬀ' ['f', 'f'] (nfkc s))))))) := by
  simp only [normalizeLigatures, ligatureMap, List.foldl_cons, List.foldl_nil]

theorem noLig_normalizeLigatures (s : Str) :
    ∀ d ∈ normalizeLigatures s, ∀ p ∈ ligatureMap, d ≠ p.1 := by
  rw [normalizeLigatures_unfold]
  apply noLig_replaceChar _ _ _ (by decide)
  apply noLig_replaceChar _ _ _ (by decide)
  apply noLig_replaceChar _ _ _ (by decide)
  apply noLig_replaceChar _ _ _ (by decide)
  apply noLig_replaceChar _ _ _ (by decide)
  apply noLig_replaceChar _ _ _ (by decide)
  apply noLig_replaceChar _ _ _ (by decide)
  exact noLig_nfkc s

theorem normalizeLigatures_id (s : Str)
    (h : ∀ c ∈ s, ∀ p ∈ ligatureMap, c ≠ p.1) :
    normalizeLigatures s = s := by
  rw [normalizeLigatures_unfold]
  have hn : nfkc s = s := nfkc_id s h
  rw [hn]
  rw [replaceChar_id _ _ s (fun h2 => h 'ﬀ' h2 ('ﬀ', ['f', 'f'])
    (by decide) rfl)]
  rw [replaceChar_id _ _ s (fun h2 => h 'ﬁ' h2 ('ﬁ', ['f', 'i'])
    (by decide) rfl)]
  rw [replaceChar_id _ _ s (fun h2 => h 'ﬂ' h2 ('ﬂ', ['f', 'l'])
    (by decide) rfl)]
  rw [replaceChar_id _ _ s (fun h2 => h 'ﬃ' h2 ('ﬃ', ['f', 'f', 'i'])
    (by decide) rfl)]
  rw [replaceChar_id _ _ s (fun h2 => h 'ﬄ' h2 ('ﬄ', ['f', 'f', 'l'])
    (by decide) rfl)]
  rw [replaceChar_id _ _ s (fun h2 => h 'ﬅ' h2 ('ﬅ', ['s', 't'])
    (by decide) rfl)]
  rw [replaceChar_id _ _ s (fun h2 => h 'ﬆ' h2 ('ﬆ', ['s', 't'])
    (by decide) rfl)]

/-! ### Cleaning: character-class invariants of the clean_text output -/

theorem mem_replaceCR (s : Str) (c : Char) (h : c ∈ replaceCR s) :
    c ∈ s ∨ c = '\n' := by
  obtain ⟨e, he, hde⟩ := List.mem_map.mp h
  by_cases her : e = '\r'
  · rw [if_pos her] at hde
    exact Or.inr hde.symm
  · rw [if_neg her] at hde
    exact Or.inl (hde ▸ he)

theorem noCR_cleanText (x : Str) : '\r' ∉ cleanText x := by
  intro h
  rcases mem_cleanText x '\r' h with h2 | h2 | h2
  · exact normalizeEOL_noCR _ h2
  · exact absurd h2 (by decide)
  · exact absurd h2 (by decide)

theorem noLig_cleanText (x : Str) :
    ∀ d ∈ cleanText x, ∀ p ∈ ligatureMap, d ≠ p.1 := by
  intro d hd
  rcases mem_cleanText x d hd with h2 | h2 | h2
  · rcases mem_replaceCR _ d h2 with h3 | rfl
    · rcases mem_replaceCRLF _ d h3 with h4 | rfl
      · exact noLig_normalizeLigatures x d h4
      · decide
    · decide
  · subst h2
    decide
  · subst h2
    decide

theorem eol_lig_id_cleanText (x : Str) :
    normalizeEOL (normalizeLigatures (cleanText x)) = cleanText x := by
  rw [normalizeLigatures_id _ (noLig_cleanText x),
    normalizeEOL_id_of_noCR _ (noCR_cleanText x)]

/-! ### Cleaning: every line of the clean_text output is a cleanLine
fixed point -/

theorem filterMap_cleanLine_id (ls : List Str)
    (h : ∀ l ∈ ls, cleanLine l = some l) :
    ls.filterMap cleanLine = ls := by
  induction ls with
  | nil => rfl
  | cons l t ih =>
      rw [List.filterMap_cons, h l (List.mem_cons_self l t),
        ih (fun l2 hl2 => h l2 (List.mem_cons_of_mem l hl2))]

theorem mem_splitLines_cases (s : Str) (l : Str) (hl : l ∈ splitLines s) :
    l = [] ∨ l ∈ nonEmptyLines s := by
  by_cases he : l.isEmpty
  · exact Or.inl (List.isEmpty_iff.mp he)
  · exact Or.inr (List.mem_filter.mpr ⟨hl, by simpa using he⟩)

theorem nonEmptyLines_collapseNL (s : Str) :
    nonEmptyLines (collapseNL s) = nonEmptyLines s :=
  nonEmptyLines_collapseNLAux_bounded s.length s (Nat.le_refl _) 0

theorem has3NL_stripStr (s : Str) (h : has3NL s = false) :
    has3NL (stripStr s) = false := by
  obtain ⟨pre, hpre⟩ := List.dropWhile_suffix (l := s) isSpaceChar
  have h1 : has3NL (lstrip s) = false := by
    apply has3NL_suffix_false pre
    rw [show pre ++ lstrip s = s from hpre]
    exact h
  obtain ⟨t, ht⟩ := rstrip_isPrefix (lstrip s)
  show has3NL (rstrip (lstrip s)) = false
  by_contra h2
  rw [Bool.not_eq_false] at h2
  have h3 := has3NL_append_of_left _ t h2
  rw [← ht] at h3
  rw [h3] at h1
  cases h1

theorem collapseNL_lines_fixed (ms : List Str)
    (hfix : ∀ l ∈ ms, cleanLine l = some l) :
    ∀ l ∈ splitLines (collapseNL (joinLines ms)), cleanLine l = some l := by
  intro l hl
  rcases mem_splitLines_cases _ l hl with rfl | h2
  · exact cleanLine_nil
  · rw [nonEmptyLines_collapseNL] at h2
    cases ms with
    | nil =>
        rw [show joinLines ([] : List Str) = [] from rfl,
          nonEmptyLines_nil] at h2
        cases h2
    | cons m ms2 =>
        have hsplit : splitLines (joinLines (m :: ms2)) = m :: ms2 :=
          splitLines_joinLines _ (by simp) (fun l2 hl2 =>
            (cleanLine_fixed_props l2 (hfix l2 hl2)).2.2.1)
        unfold nonEmptyLines at h2
        rw [hsplit] at h2
        exact hfix l (List.mem_of_mem_filter h2)

theorem stripStr_lines_fixed (z : Str)
    (hz : ∀ l ∈ splitLines z, cleanLine l = some l) :
    ∀ l ∈ splitLines (stripStr z), cleanLine l = some l := by
  have hl1 : lstrip (joinLines (splitLines z)) =
      joinLines ((splitLines z).dropWhile (fun l => l.isEmpty)) :=
    lstrip_joinLines _ (fun l hl =>
      (cleanLine_fixed_props l (hz l hl)).2.2.2.1)
  have hmem3 : ∀ l ∈ (splitLines z).dropWhile (fun l => l.isEmpty),
      l ∈ splitLines z := by
    intro l hl
    obtain ⟨pre, hpre⟩ := List.dropWhile_suffix (l := splitLines z)
      (fun l => l.isEmpty)
    rw [← hpre]
    exact List.mem_append.mpr (Or.inr hl)
  have hl2 : rstrip (joinLines ((splitLines z).dropWhile
      (fun l => l.isEmpty))) =
      joinLines ((((splitLines z).dropWhile
        (fun l => l.isEmpty)).reverse.dropWhile
          (fun l => l.isEmpty)).reverse) :=
    rstrip_joinLines _ (fun l hl =>
      (cleanLine_fixed_props l (hz l (hmem3 l hl))).2.2.2.2)
  have hmem4 : ∀ l ∈ (((splitLines z).dropWhile
      (fun l => l.isEmpty)).reverse.dropWhile (fun l => l.isEmpty)).reverse,
      l ∈ splitLines z := by
    intro l hl
    have h2 := List.mem_reverse.mp hl
    obtain ⟨pre, hpre⟩ := List.dropWhile_suffix
      (l := ((splitLines z).dropWhile (fun l => l.isEmpty)).reverse)
      (fun l => l.isEmpty)
    have h3 : l ∈ ((splitLines z).dropWhile (fun l => l.isEmpty)).reverse := by
      rw [← hpre]
      exact List.mem_append.mpr (Or.inr h2)
    exact hmem3 l (List.mem_reverse.mp h3)
  have hstrip : stripStr z = joinLines ((((splitLines z).dropWhile
      (fun l => l.isEmpty)).reverse.dropWhile (fun l => l.isEmpty)).reverse) := by
    show rstrip (lstrip z) = _
    conv_lhs => rw [← joinLines_splitLines z]
    rw [hl1, hl2]
  rw [hstrip]
  intro l hl
  cases hms4 : (((splitLines z).dropWhile
      (fun l => l.isEmpty)).reverse.dropWhile (fun l => l.isEmpty)).reverse with
  | nil =>
      rw [hms4] at hl
      rw [show joinLines ([] : List Str) = [] from rfl, splitLines_nil] at hl
      rcases List.mem_singleton.mp hl with rfl
      exact cleanLine_nil
  | cons m4 ms4 =>
      rw [hms4] at hl
      rw [splitLines_joinLines _ (by simp) (fun l2 hl2 =>
        (cleanLine_fixed_props l2 (hz l2 (hmem4 l2 (hms4 ▸ hl2)))).2.2.1)] at hl
      exact hz l (hmem4 l (hms4 ▸ hl))

theorem cleanText_lines_fixed (x : Str) :
    ∀ l ∈ splitLines (cleanText x), cleanLine l = some l := by
  have h : cleanText x = stripStr (collapseNL (joinLines
      ((splitLines (normalizeEOL (normalizeLigatures x))).filterMap
        cleanLine))) := rfl
  rw [h]
  apply stripStr_lines_fixed
  apply collapseNL_lines_fixed
  intro l hl
  obtain ⟨l0, _, hl0⟩ := List.mem_filterMap.mp hl
  exact cleanLine_idem l0 l hl0

theorem cleanText_no3NL (x : Str) : has3NL (cleanText x) = false := by
  have h : cleanText x = stripStr (collapseNL (joinLines
      ((splitLines (normalizeEOL (normalizeLigatures x))).filterMap
        cleanLine))) := rfl
  rw [h]
  exact has3NL_stripStr _ (collapseNL_no3NL _)

theorem cleanText_idem (x : Str) :
    cleanText (cleanText x) = cleanText x := by
  have h1 : cleanText (cleanText x) = stripStr (collapseNL (joinLines
      ((splitLines (normalizeEOL (normalizeLigatures (cleanText x)))).filterMap
        cleanLine))) := rfl
  rw [h1, eol_lig_id_cleanText x,
    filterMap_cleanLine_id _ (cleanText_lines_fixed x),
    joinLines_splitLines, collapseNL_id_of_no3NL _ (cleanText_no3NL x)]
  have h2 : cleanText x = stripStr (collapseNL (joinLines
      ((splitLines (normalizeEOL (normalizeLigatures x))).filterMap
        cleanLine))) := rfl
  conv_lhs => rw [h2]
  rw [stripStr_idem]
  exact h2.symm

/-! ### Cleaning: the run-counting collapse agrees with the maximal-run
collapse written from the spec -/

theorem specCollapse_nil : specCollapse [] = [] := by
  rw [specCollapse.eq_def]

theorem specCollapse_nl (rest : Str) :
    specCollapse ('\n' :: rest) =
      (if 1 + countNL rest ≥ 3 then ['\n', '\n']
       else List.replicate (1 + countNL rest) '\n') ++
        specCollapse (dropNL rest) := by
  rw [specCollapse.eq_def]
  split
  · rename_i heq
    injection heq with _ h2
    rw [h2]
  · rename_i hne heq
    injection heq with h1 h2
    exact absurd h1.symm hne
  · rename_i heq
    cases heq

theorem specCollapse_cons (c : Char) (rest : Str) (hc : c ≠ '\n') :
    specCollapse (c :: rest) = c :: specCollapse rest := by
  rw [specCollapse.eq_def]
  split
  · rename_i heq
    injection heq with h1 _
    exact absurd h1 hc
  · rename_i heq
    injection heq with h1 h2
    rw [h1, h2]
  · rename_i heq
    cases heq

theorem countNL_nl (rest : Str) : countNL ('\n' :: rest) = 1 + countNL rest := by
  unfold countNL
  rw [List.takeWhile_cons, if_pos (by decide), List.length_cons]
  omega

theorem dropNL_nl (rest : Str) : dropNL ('\n' :: rest) = dropNL rest := by
  unfold dropNL
  rw [List.dropWhile_cons, if_pos (by decide)]

theorem countNL_dropNL_decomp (s : Str) :
    List.replicate (countNL s) '\n' ++ dropNL s = s := by
  unfold countNL dropNL
  have h2 : s.takeWhile (fun c => c == '\n') =
      List.replicate (s.takeWhile (fun c => c == '\n')).length '\n' := by
    apply List.eq_replicate.mpr
    refine ⟨rfl, ?_⟩
    intro b hb
    have h3 := List.mem_takeWhile_imp hb
    simpa using h3
  rw [← h2]
  exact List.takeWhile_append_dropWhile (p := fun c => c == '\n') (l := s)

theorem dropNL_not_nl (s : Str) : ∀ r, dropNL s ≠ '\n' :: r := by
  intro r h
  have h2 := dropWhile_head_false (p := fun c => c == '\n') h
  simp at h2

theorem collapseNLAux_replicate_shift : ∀ (j k : Nat) (t : Str),
    collapseNLAux k (List.replicate j '\n' ++ t) = collapseNLAux (k + j) t := by
  intro j
  induction j with
  | zero => intro k t; rfl
  | succ j ih =>
      intro k t
      rw [List.replicate_succ, List.cons_append, collapseNLAux_nl, ih]
      rw [show k + 1 + j = k + (j + 1) from by omega]

theorem collapseNLAux_emit (k : Nat) (t : Str) (ht : ∀ r, t ≠ '\n' :: r) :
    collapseNLAux k t = emitNL k ++ collapseNLAux 0 t := by
  cases t with
  | nil =>
      rw [collapseNLAux_nil, collapseNLAux_nil,
        show emitNL 0 = [] from rfl, List.append_nil]
  | cons c rest =>
      have hc : c ≠ '\n' := fun h => ht rest (by rw [h])
      rw [collapseNLAux_cons k c rest hc, collapseNLAux_cons 0 c rest hc,
        show emitNL 0 = [] from rfl, List.nil_append]

theorem specCollapse_eq_collapseNL_bounded (n : Nat) : ∀ s : Str,
    s.length ≤ n → specCollapse s = collapseNLAux 0 s := by
  induction n with
  | zero =>
      intro s hs
      rw [List.length_eq_zero.mp (Nat.le_zero.mp hs), specCollapse_nil]
      rfl
  | succ n ih =>
      intro s hs
      match s, hs with
      | [], _ =>
          rw [specCollapse_nil]
          rfl
      | c :: rest, hs =>
          by_cases hc : c = '\n'
          · subst hc
            rw [specCollapse_nl, collapseNLAux_nl]
            conv_rhs => rw [show rest = List.replicate (countNL rest) '\n' ++
              dropNL rest from (countNL_dropNL_decomp rest).symm]
            rw [collapseNLAux_replicate_shift,
              collapseNLAux_emit _ _ (dropNL_not_nl rest)]
            have hlen : (dropNL rest).length ≤ n := by
              have h2 : (dropNL rest).length ≤ rest.length :=
                (List.dropWhile_suffix (l := rest) (fun c => c == '\n')).length_le
              simp only [List.length_cons] at hs
              omega
            rw [ih (dropNL rest) hlen]
            congr 1
          · rw [specCollapse_cons c rest hc, collapseNLAux_cons 0 c rest hc,
              show emitNL 0 = [] from rfl, List.nil_append,
              ih rest (by simp only [List.length_cons] at hs; omega)]

theorem specCollapse_eq_collapseNL (s : Str) :
    specCollapse s = collapseNL s :=
  specCollapse_eq_collapseNL_bounded s.length s (Nat.le_refl _)

/-! ### Cleaning: the ligature pass is a per-character flatMap and
commutes with line-ending normalization -/

theorem replaceChar_append (lig : Char) (exp a b : Str) :
    replaceChar lig exp (a ++ b) =
      replaceChar lig exp a ++ replaceChar lig exp b := by
  unfold replaceChar
  rw [List.flatMap_append]

theorem normalizeLigatures_flatMap (s : Str) :
    normalizeLigatures s = s.flatMap ligChar := by
  rw [normalizeLigatures_unfold]
  induction s with
  | nil => simp only [nfkc, replaceChar, List.flatMap_nil]
  | cons c rest ih =>
      rw [show nfkc (c :: rest) = nfkcChar c ++ nfkc rest from rfl,
        replaceChar_append, replaceChar_append, replaceChar_append,
        replaceChar_append, replaceChar_append, replaceChar_append,
        replaceChar_append, ih]
      rw [show (c :: rest).flatMap ligChar =
        ligChar c ++ rest.flatMap ligChar from rfl]
      rw [show ligChar c = replaceChar 'ﬆ' ['s', 't']
        (replaceChar 'ﬅ' ['s', 't'] (replaceChar 'ﬄ' ['f', 'f', 'l']
          (replaceChar 'ﬃ' ['f', 'f', 'i'] (replaceChar 'ﬂ' ['f', 'l']
            (replaceChar 'ﬁ' ['f', 'i'] (replaceChar 'ﬀ' ['f', 'f']
              (nfkcChar c))))))) from rfl]

theorem nfkcChar_ne_nil (c : Char) : nfkcChar c ≠ [] := by
  rw [nfkcChar.eq_def]
  split <;> simp

theorem replaceChar_ne_nil (lig : Char) (exp s : Str) (hexp : exp ≠ [])
    (hs : s ≠ []) : replaceChar lig exp s ≠ [] := by
  cases s with
  | nil => cases hs rfl
  | cons c rest =>
      show (if c = lig then exp else [c]) ++ replaceChar lig exp rest ≠ []
      intro h
      rcases List.append_eq_nil.mp h with ⟨h1, _⟩
      by_cases hc : c = lig
      · rw [if_pos hc] at h1
        exact hexp h1
      · rw [if_neg hc] at h1
        cases h1

theorem ligChar_ne_nil (c : Char) : ligChar c ≠ [] := by
  unfold ligChar
  apply replaceChar_ne_nil _ _ _ (by decide)
  apply replaceChar_ne_nil _ _ _ (by decide)
  apply replaceChar_ne_nil _ _ _ (by decide)
  apply replaceChar_ne_nil _ _ _ (by decide)
  apply replaceChar_ne_nil _ _ _ (by decide)
  apply replaceChar_ne_nil _ _ _ (by decide)
  apply replaceChar_ne_nil _ _ _ (by decide)
  exact nfkcChar_ne_nil c

theorem ligChar_cr : ligChar '\r' = ['\r'] := by decide

theorem ligChar_nl : ligChar '\n' = ['\n'] := by decide

theorem mem_ligChar (c d : Char) (hd : d ∈ ligChar c) :
    d ∈ ['f', 'i', 'l', 's', 't'] ∨ d = c := by
  unfold ligChar at hd
  rcases mem_replaceChar _ _ _ d hd with h | hd
  · exact Or.inl ((by decide : ∀ x ∈ (['s', 't'] : Str),
      x ∈ (['f', 'i', 'l', 's', 't'] : Str)) d h)
  rcases mem_replaceChar _ _ _ d hd with h | hd
  · exact Or.inl ((by decide : ∀ x ∈ (['s', 't'] : Str),
      x ∈ (['f', 'i', 'l', 's', 't'] : Str)) d h)
  rcases mem_replaceChar _ _ _ d hd with h | hd
  · exact Or.inl ((by decide : ∀ x ∈ (['f', 'f', 'l'] : Str),
      x ∈ (['f', 'i', 'l', 's', 't'] : Str)) d h)
  rcases mem_replaceChar _ _ _ d hd with h | hd
  · exact Or.inl ((by decide : ∀ x ∈ (['f', 'f', 'i'] : Str),
      x ∈ (['f', 'i', 'l', 's', 't'] : Str)) d h)
  rcases mem_replaceChar _ _ _ d hd with h | hd
  · exact Or.inl ((by decide : ∀ x ∈ (['f', 'l'] : Str),
      x ∈ (['f', 'i', 'l', 's', 't'] : Str)) d h)
  rcases mem_replaceChar _ _ _ d hd with h | hd
  · exact Or.inl ((by decide : ∀ x ∈ (['f', 'i'] : Str),
      x ∈ (['f', 'i', 'l', 's', 't'] : Str)) d h)
  rcases mem_replaceChar _ _ _ d hd with h | hd
  · exact Or.inl ((by decide : ∀ x ∈ (['f', 'f'] : Str),
      x ∈ (['f', 'i', 'l', 's', 't'] : Str)) d h)
  rcases nfkcChar_mem c d hd with h | ⟨h, _⟩
  · exact Or.inl h
  · exact Or.inr h

theorem ligChar_noCR (c : Char) (hc : c ≠ '\r') : '\r' ∉ ligChar c := by
  intro h2
  rcases mem_ligChar c '\r' h2 with h3 | h3
  · exact absurd h3 (by decide)
  · exact hc h3.symm

theorem ligChar_noNL (c : Char) (hc : c ≠ '\n') : '\n' ∉ ligChar c := by
  intro h2
  rcases mem_ligChar c '\n' h2 with h3 | h3
  · exact absurd h3 (by decide)
  · exact hc h3.symm

theorem replaceCRLF_append_noCR (a y : Str) (h : '\r' ∉ a) :
    replaceCRLF (a ++ y) = a ++ replaceCRLF y := by
  induction a with
  | nil => rfl
  | cons c rest ih =>
      rw [List.cons_append, replaceCRLF_cons_ne c _ (fun h2 : c = '\r' =>
          h (h2 ▸ List.mem_cons_self c rest)),
        ih (fun h2 => h (List.mem_cons_of_mem c h2)), List.cons_append]

theorem replaceCRLF_flatMap_bounded (n : Nat) : ∀ s : Str, s.length ≤ n →
    replaceCRLF (s.flatMap ligChar) = (replaceCRLF s).flatMap ligChar := by
  induction n with
  | zero =>
      intro s hs
      rw [List.length_eq_zero.mp (Nat.le_zero.mp hs)]
      rfl
  | succ n ih =>
      intro s hs
      match s, hs with
      | [], _ => rfl
      | c :: rest, hs =>
          by_cases hc : c = '\r'
          · subst hc
            match rest, hs with
            | [], _ => decide
            | b :: u, hs =>
                by_cases hb : b = '\n'
                · subst hb
                  rw [show ('\r' :: '\n' :: u).flatMap ligChar =
                    ligChar '\r' ++ (ligChar '\n' ++ u.flatMap ligChar)
                      from rfl, ligChar_cr, ligChar_nl]
                  rw [show (['\r'] : Str) ++ (['\n'] ++ u.flatMap ligChar) =
                    '\r' :: '\n' :: u.flatMap ligChar from rfl]
                  rw [show replaceCRLF ('\r' :: '\n' :: u.flatMap ligChar) =
                    '\n' :: replaceCRLF (u.flatMap ligChar) from rfl]
                  rw [show replaceCRLF ('\r' :: '\n' :: u) =
                    '\n' :: replaceCRLF u from rfl]
                  rw [ih u (by simp only [List.length_cons] at hs; omega)]
                  rw [show ('\n' :: replaceCRLF u).flatMap ligChar =
                    ligChar '\n' ++ (replaceCRLF u).flatMap ligChar from rfl,
                    ligChar_nl]
                  rfl
                · obtain ⟨d, fb, hdb⟩ : ∃ d fb, ligChar b = d :: fb := by
                    cases hlb : ligChar b with
                    | nil => exact absurd hlb (ligChar_ne_nil b)
                    | cons d fb => exact ⟨d, fb, rfl⟩
                  have hd : d ≠ '\n' := by
                    intro h2
                    subst h2
                    exact ligChar_noNL b hb (by
                      rw [hdb]
                      exact List.mem_cons_self _ _)
                  rw [show ('\r' :: b :: u).flatMap ligChar =
                    ligChar '\r' ++ (ligChar b ++ u.flatMap ligChar)
                      from rfl, ligChar_cr, hdb]
                  rw [show (['\r'] : Str) ++ (d :: fb ++ u.flatMap ligChar) =
                    '\r' :: (d :: (fb ++ u.flatMap ligChar)) from rfl]
                  rw [replaceCRLF_cr _ (fun r2 h2 =>
                    hd (List.cons_eq_cons.mp h2).1)]
                  rw [show d :: (fb ++ u.flatMap ligChar) =
                    (d :: fb) ++ u.flatMap ligChar from rfl, ← hdb]
                  rw [show ligChar b ++ u.flatMap ligChar =
                    (b :: u).flatMap ligChar from rfl]
                  rw [ih (b :: u) (Nat.le_of_succ_le_succ hs)]
                  rw [replaceCRLF_cr (b :: u) (fun r2 h2 =>
                    hb (List.cons_eq_cons.mp h2).1)]
                  rw [show ('\r' :: replaceCRLF (b :: u)).flatMap ligChar =
                    ligChar '\r' ++ (replaceCRLF (b :: u)).flatMap ligChar
                      from rfl, ligChar_cr]
                  rfl
          · rw [show (c :: rest).flatMap ligChar =
              ligChar c ++ rest.flatMap ligChar from rfl]
            rw [replaceCRLF_append_noCR _ _ (ligChar_noCR c hc)]
            rw [ih rest (Nat.le_of_succ_le_succ hs)]
            rw [replaceCRLF_cons_ne c rest hc]
            rfl

theorem replaceCRLF_flatMap (s : Str) :
    replaceCRLF (s.flatMap ligChar) = (replaceCRLF s).flatMap ligChar :=
  replaceCRLF_flatMap_bounded s.length s (Nat.le_refl _)

theorem replaceCR_flatMap (s : Str) :
    replaceCR (s.flatMap ligChar) = (replaceCR s).flatMap ligChar := by
  induction s with
  | nil => rfl
  | cons c rest ih =>
      by_cases hc : c = '\r'
      · subst hc
        rw [show ('\r' :: rest).flatMap ligChar =
          ligChar '\r' ++ rest.flatMap ligChar from rfl, ligChar_cr]
        rw [show (['\r'] : Str) ++ rest.flatMap ligChar =
          '\r' :: rest.flatMap ligChar from rfl]
        rw [show replaceCR ('\r' :: rest.flatMap ligChar) =
          '\n' :: replaceCR (rest.flatMap ligChar) from by
            unfold replaceCR
            rw [List.map_cons, if_pos rfl]]
        rw [ih]
        rw [show replaceCR ('\r' :: rest) = '\n' :: replaceCR rest from by
          unfold replaceCR
          rw [List.map_cons, if_pos rfl]]
        rw [show ('\n' :: replaceCR rest).flatMap ligChar =
          ligChar '\n' ++ (replaceCR rest).flatMap ligChar from rfl,
          ligChar_nl]
        rfl
      · rw [show (c :: rest).flatMap ligChar =
          ligChar c ++ rest.flatMap ligChar from rfl]
        rw [show replaceCR (ligChar c ++ rest.flatMap ligChar) =
          replaceCR (ligChar c) ++ replaceCR (rest.flatMap ligChar) from by
            unfold replaceCR
            rw [List.map_append]]
        rw [ih, replaceCR_id_of_noCR _ (ligChar_noCR c hc)]
        rw [show replaceCR (c :: rest) = c :: replaceCR rest from by
          unfold replaceCR
          rw [List.map_cons, if_neg hc]]
        rw [show (c :: replaceCR rest).flatMap ligChar =
          ligChar c ++ (replaceCR rest).flatMap ligChar from rfl]

theorem eol_lig_comm (s : Str) :
    normalizeEOL (normalizeLigatures s) =
      normalizeLigatures (normalizeEOL s) := by
  rw [normalizeLigatures_flatMap, normalizeLigatures_flatMap]
  unfold normalizeEOL
  rw [replaceCRLF_flatMap, replaceCR_flatMap]

/-! ### Cleaning: the per-line pass as the spec's filter and map -/

theorem filterMap_cleanLine_eq (ls : List Str) :
    ls.filterMap cleanLine =
      (ls.filter (fun l => !pythonIsDigit (stripStr l))).map
        (fun l => if (stripStr l).isEmpty then []
          else joinSp (words (stripStr l))) := by
  induction ls with
  | nil => rfl
  | cons l t ih =>
      by_cases hd : pythonIsDigit (stripStr l) = true
      · have h1 : cleanLine l = none := by
          unfold cleanLine
          rw [if_pos hd]
        rw [List.filterMap_cons, h1, List.filter_cons,
          if_neg (by rw [hd]; decide)]
        exact ih
      · have hd2 : pythonIsDigit (stripStr l) = false := by
          cases h : pythonIsDigit (stripStr l)
          · rfl
          · exact absurd h hd
        have h1 : cleanLine l = some (if (stripStr l).isEmpty then []
            else joinSp (words (stripStr l))) := by
          unfold cleanLine
          rw [if_neg hd]
          by_cases he : (stripStr l).isEmpty
          · rw [if_pos he, if_pos he]
          · rw [if_neg he, if_neg he]
        have hfil : List.filter (fun l => !pythonIsDigit (stripStr l))
            (l :: t) =
            l :: List.filter (fun l => !pythonIsDigit (stripStr l)) t := by
          rw [List.filter_cons, if_pos (by rw [hd2]; decide)]
        rw [List.filterMap_cons, h1, hfil, List.map_cons, ih]

/-- C7: on every input, clean_text performs exactly the steps of the
spec pipeline: normalize line endings to newline, expand the seven
typographic ligatures via compatibility normalization plus the explicit
replacement map, drop the lines whose trimmed content is only digits,
collapse internal whitespace runs to a single space per line, collapse
runs of three-or-more newlines to two, and trim the ends of the
output. -/
theorem clean_text_matches_spec_pipeline (raw : Str) :
    cleanText raw = specClean raw := by
  have h1 : cleanText raw = stripStr (collapseNL (joinLines
      ((splitLines (normalizeEOL (normalizeLigatures raw))).filterMap
        cleanLine))) := rfl
  have h2 : specClean raw = stripStr (specCollapse (joinLines
      (((splitLines (normalizeLigatures (normalizeEOL raw))).filter
        (fun l => !pythonIsDigit (stripStr l))).map
          (fun l => if (stripStr l).isEmpty then []
            else joinSp (words (stripStr l)))))) := rfl
  rw [h1, h2, eol_lig_comm raw, filterMap_cleanLine_eq,
    specCollapse_eq_collapseNL]

/-- C8: clean_text is idempotent — clean_text (clean_text x) =
clean_text x for every input — and every output contains no carriage
return, has no line consisting solely of digits, and contains no run of
three or more consecutive newline characters. -/
theorem clean_text_idempotent_and_invariants (x : Str) :
    cleanText (cleanText x) = cleanText x ∧
    '\r' ∉ cleanText x ∧
    (∀ l ∈ splitLines (cleanText x), pythonIsDigit l = false) ∧
    ¬∃ a b, cleanText x = a ++ '\n' :: '\n' :: '\n' :: b := by
  refine ⟨cleanText_idem x, noCR_cleanText x, ?_, ?_⟩
  · intro l hl
    exact (cleanLine_fixed_props l (cleanText_lines_fixed x l hl)).2.1
  · rintro ⟨a, b, hab⟩
    have h2 := has3NL_append_of_right a ('\n' :: '\n' :: '\n' :: b)
      (has3NL_triple b)
    rw [← hab, cleanText_no3NL x] at h2
    exact absurd h2 (by decide)

end PdfIngest
